import Mathlib

/-!
# Verification of the request integrity and authentication layer of `sumup/acp`

This file is a shallow embedding, in Lean 4, of the signature / authentication /
webhook subsystem of the `sumup/acp` Go repository, together with proofs of the
behavioural properties claimed by its specification.

Modelling conventions:

* Byte strings and text are `List Nat`.  ASCII text is represented by its byte
  values; characters inside JSON strings are represented by Unicode code
  points (the UTF-8 decoding of the wire bytes; UTF-8 coding is injective and
  order preserving, so equalities and the byte-lexicographic key order are
  preserved by this re-coding).
* Machine integers are `Nat`/`Int` with explicit `% 2^32` where 32-bit
  wrap-around matters (inside SHA-256 and `subtle.ConstantTimeByteEq`).
* `time.Time` instants are modelled as `Int` nanoseconds since the Unix epoch
  (the middleware only ever uses instants, differences of instants, and the
  UTC rendering of an instant).
* `time.Duration` is `Int` nanoseconds.
* Fallible Go functions returning `(T, error)` become `Option T` or
  `Except E T` in Lean.

Everything is an executable `def`, so each definition can be run on concrete
inputs.
-/

namespace Acp

/-! ## SHA-256 over byte lists

Model of Go `crypto/sha256` (FIPS 180-4).  Words are `Nat` kept below `2^32`
by explicit reduction.  The digest of a byte list is a list of 32 bytes.
-/

def add32 (a b : Nat) : Nat := (a + b) % 4294967296

def rotr32 (n x : Nat) : Nat := ((x >>> n) + ((x % (2 ^ n)) <<< (32 - n))) % 4294967296

def not32 (x : Nat) : Nat := Nat.xor x 4294967295

def shaCh (x y z : Nat) : Nat := Nat.xor (Nat.land x y) (Nat.land (not32 x) z)

def shaMaj (x y z : Nat) : Nat :=
  Nat.xor (Nat.xor (Nat.land x y) (Nat.land x z)) (Nat.land y z)

def bigSigma0 (x : Nat) : Nat := Nat.xor (Nat.xor (rotr32 2 x) (rotr32 13 x)) (rotr32 22 x)

def bigSigma1 (x : Nat) : Nat := Nat.xor (Nat.xor (rotr32 6 x) (rotr32 11 x)) (rotr32 25 x)

def smallSigma0 (x : Nat) : Nat := Nat.xor (Nat.xor (rotr32 7 x) (rotr32 18 x)) (x >>> 3)

def smallSigma1 (x : Nat) : Nat := Nat.xor (Nat.xor (rotr32 17 x) (rotr32 19 x)) (x >>> 10)

def shaK : List Nat :=
  [1116352408, 1899447441, 3049323471, 3921009573, 961987163, 1508970993,
   2453635748, 2870763221, 3624381080, 310598401, 607225278, 1426881987,
   1925078388, 2162078206, 2614888103, 3248222580, 3835390401, 4022224774,
   264347078, 604807628, 770255983, 1249150122, 1555081692, 1996064986,
   2554220882, 2821834349, 2952996808, 3210313671, 3336571891, 3584528711,
   113926993, 338241895, 666307205, 773529912, 1294757372, 1396182291,
   1695183700, 1986661051, 2177026350, 2456956037, 2730485921, 2820302411,
   3259730800, 3345764771, 3516065817, 3600352804, 4094571909, 275423344,
   430227734, 506948616, 659060556, 883997877, 958139571, 1322822218,
   1537002063, 1747873779, 1955562222, 2024104815, 2227730452, 2361852424,
   2428436474, 2756734187, 3204031479, 3329325298]

def shaH0 : List Nat :=
  [1779033703, 3144134277, 1013904242, 2773480762,
   1359893119, 2600822924, 528734635, 1541459225]

/-- Big-endian 32-bit word from four bytes. -/
def word32OfBytes (b0 b1 b2 b3 : Nat) : Nat :=
  ((b0 % 256) <<< 24) + ((b1 % 256) <<< 16) + ((b2 % 256) <<< 8) + (b3 % 256)

/-- Split a 64-byte block into sixteen big-endian words. -/
def toWords : List Nat → List Nat
  | b0 :: b1 :: b2 :: b3 :: rest => word32OfBytes b0 b1 b2 b3 :: toWords rest
  | _ => []

/-- One step of the SHA-256 message-schedule extension. -/
def schedStep (w : List Nat) : List Nat :=
  w ++ [add32
          (add32 (smallSigma1 (w.getD (w.length - 2) 0)) (w.getD (w.length - 7) 0))
          (add32 (smallSigma0 (w.getD (w.length - 15) 0)) (w.getD (w.length - 16) 0))]

/-- Iterate the schedule extension `n` times (48 for SHA-256). -/
def sched : List Nat → Nat → List Nat
  | w, 0 => w
  | w, n + 1 => sched (schedStep w) n

/-- One compression round; the state is the eight working variables. -/
def shaRound (st : List Nat) (kw : Nat × Nat) : List Nat :=
  match st with
  | [a, b, c, d, e, f, g, h] =>
      let t1 := add32 (add32 (add32 h (bigSigma1 e)) (add32 (shaCh e f g) kw.1)) kw.2
      let t2 := add32 (bigSigma0 a) (shaMaj a b c)
      [add32 t1 t2, a, b, c, add32 d t1, e, f, g]
  | other => other

/-- Compress one 64-byte block into the running hash state. -/
def compressBlock (h : List Nat) (block : List Nat) : List Nat :=
  let w := sched (toWords block) 48
  let final := (shaK.zip w).foldl shaRound h
  List.zipWith add32 h final

/-- Big-endian 8-byte encoding of the bit length. -/
def lenBytes (bits : Nat) : List Nat :=
  [bits >>> 56 % 256, bits >>> 48 % 256, bits >>> 40 % 256, bits >>> 32 % 256,
   bits >>> 24 % 256, bits >>> 16 % 256, bits >>> 8 % 256, bits % 256]

/-- Merkle–Damgård padding: `0x80`, zeros to 56 mod 64, 8-byte bit length. -/
def shaPad (msg : List Nat) : List Nat :=
  let l := msg.length
  let zeros := (119 - l % 64) % 64
  msg ++ (128 :: List.replicate zeros 0) ++ lenBytes (l * 8)

/-- Split a (padded) message into 64-byte blocks. -/
def shaBlocks (l : List Nat) : List (List Nat) :=
  if h : l = [] then []
  else l.take 64 :: shaBlocks (l.drop 64)
termination_by l.length
decreasing_by
  simp [List.length_drop]
  exact Nat.pos_of_ne_zero (fun hl => h (List.eq_nil_of_length_eq_zero hl))

/-- Big-endian bytes of a 32-bit word. -/
def wordBytes (w : Nat) : List Nat := [w >>> 24 % 256, w >>> 16 % 256, w >>> 8 % 256, w % 256]

/-- SHA-256 digest (32 bytes) of a byte list; model of Go `sha256.Sum256` /
the incremental `hash.Hash` used in the repository. -/
def sha256 (msg : List Nat) : List Nat :=
  (((shaBlocks (shaPad msg)).foldl compressBlock shaH0).map wordBytes).flatten

/-! ## HMAC-SHA256

Model of Go `crypto/hmac` instantiated with SHA-256 (block size 64).
-/

def hmacBlockKey (key : List Nat) : List Nat :=
  let k := if 64 < key.length then sha256 key else key
  k ++ List.replicate (64 - k.length) 0

/-- HMAC-SHA256 of `msg` under `key`. -/
def hmacSHA256 (key msg : List Nat) : List Nat :=
  let k := hmacBlockKey key
  let ipad := k.map (fun b => Nat.xor b 0x36)
  let opad := k.map (fun b => Nat.xor b 0x5c)
  sha256 (opad ++ sha256 (ipad ++ msg))

/-! ## base64url without padding

Model of Go `encoding/base64` `RawURLEncoding` (`Encode`/`DecodeString`).
Shifts and ors are written with `*`, `/`, `%` and `+`; for the disjoint bit
ranges involved this is the same arithmetic the Go code performs.  As in Go,
decoding ignores `\r` and `\n` and fails on any other character outside the
alphabet or on a leftover quantum of one character; trailing bits of a
partial quantum are discarded (the encoding is not strict).
-/

/-- The `base64url` alphabet, as byte values. -/
def b64Alphabet : List Nat :=
  [65, 66, 67, 68, 69, 70, 71, 72, 73, 74, 75, 76, 77, 78, 79, 80, 81, 82, 83,
   84, 85, 86, 87, 88, 89, 90,
   97, 98, 99, 100, 101, 102, 103, 104, 105, 106, 107, 108, 109, 110, 111, 112,
   113, 114, 115, 116, 117, 118, 119, 120, 121, 122,
   48, 49, 50, 51, 52, 53, 54, 55, 56, 57, 45, 95]

def b64Char (v : Nat) : Nat := b64Alphabet.getD v 0

/-- Inverse of the alphabet (Go `decodeMap`). -/
def b64Val (c : Nat) : Option Nat :=
  if 65 ≤ c ∧ c ≤ 90 then some (c - 65)
  else if 97 ≤ c ∧ c ≤ 122 then some (c - 97 + 26)
  else if 48 ≤ c ∧ c ≤ 57 then some (c - 48 + 52)
  else if c = 45 then some 62
  else if c = 95 then some 63
  else none

def b64Encode : List Nat → List Nat
  | [] => []
  | [b0] => [b64Char (b0 / 4), b64Char (b0 % 4 * 16)]
  | [b0, b1] => [b64Char (b0 / 4), b64Char (b0 % 4 * 16 + b1 / 16), b64Char (b1 % 16 * 4)]
  | b0 :: b1 :: b2 :: rest =>
      b64Char (b0 / 4) :: b64Char (b0 % 4 * 16 + b1 / 16) ::
      b64Char (b1 % 16 * 4 + b2 / 64) :: b64Char (b2 % 64) :: b64Encode rest

def b64DecodeQuanta : List Nat → Option (List Nat)
  | [] => some []
  | [_] => none
  | [c1, c2] =>
      match b64Val c1, b64Val c2 with
      | some v1, some v2 => some [v1 * 4 + v2 / 16]
      | _, _ => none
  | [c1, c2, c3] =>
      match b64Val c1, b64Val c2, b64Val c3 with
      | some v1, some v2, some v3 =>
          some [v1 * 4 + v2 / 16, v2 % 16 * 16 + v3 / 4]
      | _, _, _ => none
  | c1 :: c2 :: c3 :: c4 :: rest =>
      match b64Val c1, b64Val c2, b64Val c3, b64Val c4, b64DecodeQuanta rest with
      | some v1, some v2, some v3, some v4, some bs =>
          some ((v1 * 4 + v2 / 16) :: (v2 % 16 * 16 + v3 / 4) ::
            (v3 % 4 * 64 + v4) :: bs)
      | _, _, _, _, _ => none

/-- Model of `base64.RawURLEncoding.DecodeString`. -/
def b64Decode (s : List Nat) : Option (List Nat) :=
  b64DecodeQuanta (s.filter (fun c => decide (c ≠ 13) && decide (c ≠ 10)))

/-! ## Constant-time comparison

Model of Go `crypto/subtle.ConstantTimeCompare` / `ConstantTimeByteEq`, which
is what `crypto/hmac.Equal` calls.  Besides the result we model the cost of
the comparison: `ctCompareIterations` is the number of iterations of the
byte loop the Go code executes, the observable that a timing side channel
would measure.
-/

/-- Go `subtle.ConstantTimeByteEq`: `int((uint32(x^y) - 1) >> 31)`; the
`uint32` subtraction wraps, hence the explicit `% 2^32`. -/
def constantTimeByteEq (x y : Nat) : Nat :=
  ((Nat.xor x y + 4294967295) % 4294967296) >>> 31

/-- The accumulator `v |= x[i] ^ y[i]` of `subtle.ConstantTimeCompare`. -/
def ctAccumulate (x y : List Nat) : Nat :=
  (x.zip y).foldl (fun v p => Nat.lor v (Nat.xor p.1 p.2)) 0

/-- Go `subtle.ConstantTimeCompare`. -/
def constantTimeCompare (x y : List Nat) : Nat :=
  if x.length ≠ y.length then 0
  else constantTimeByteEq (ctAccumulate x y) 0

/-- Number of iterations of the byte loop in `subtle.ConstantTimeCompare`
(zero when the length guard returns early). -/
def ctCompareIterations (x y : List Nat) : Nat :=
  if x.length ≠ y.length then 0 else x.length

/-- Go `hmac.Equal`: `subtle.ConstantTimeCompare(mac1, mac2) == 1`. -/
def hmacEqual (x y : List Nat) : Bool := constantTimeCompare x y == 1

/-! ## Instants, durations, RFC 3339

`time.Time` values are instants (Int nanoseconds since the Unix epoch);
`time.Duration` is Int nanoseconds.  Calendar conversions use the standard
civil-date algorithms, which agree with Go `time`'s proleptic Gregorian
calendar.
-/

def nsPerSecond : Int := 1000000000

def secondDuration : Int := 1000000000

/-- Model of `signature.AbsDuration`. -/
def absDuration (d : Int) : Int := if d < 0 then -d else d

/-- Civil date of a day count since 1970-01-01 (proleptic Gregorian). -/
def civilFromDays (z0 : Int) : Int × Nat × Nat :=
  let z := z0 + 719468
  let era := Int.ediv z 146097
  let doe := (z - era * 146097).toNat
  let yoe := (doe - doe / 1460 + doe / 36524 - doe / 146096) / 365
  let doy := doe - (365 * yoe + yoe / 4 - yoe / 100)
  let mp := (5 * doy + 2) / 153
  let d := doy - (153 * mp + 2) / 5 + 1
  let m := if mp < 10 then mp + 3 else mp - 9
  ((yoe : Int) + era * 400 + (if m ≤ 2 then 1 else 0), m, d)

/-- Day count since 1970-01-01 of a civil date (proleptic Gregorian). -/
def daysFromCivil (y : Int) (m d : Nat) : Int :=
  let yAdj := if m ≤ 2 then y - 1 else y
  let era := Int.ediv yAdj 400
  let yoe := (yAdj - era * 400).toNat
  let mp := if 3 ≤ m then m - 3 else m + 9
  let doy := (153 * mp + 2) / 5 + d - 1
  let doe := yoe * 365 + yoe / 4 - yoe / 100 + doy
  era * 146097 + (doe : Int) - 719468

def isLeapYear (y : Int) : Bool :=
  (Int.emod y 4 == 0 && Int.emod y 100 != 0) || Int.emod y 400 == 0

def daysInMonth (y : Int) (m : Nat) : Nat :=
  if m = 2 then (if isLeapYear y then 29 else 28)
  else if m = 4 ∨ m = 6 ∨ m = 9 ∨ m = 11 then 30
  else 31

/-- Decimal digits (as byte values, most significant first) of a natural
number; `0` renders as `"0"`. -/
def natDigits (n : Nat) : List Nat :=
  ((Nat.digits 10 n).reverse.map (fun d => d + 48))

def pad2 (n : Nat) : List Nat := [48 + n / 10 % 10, 48 + n % 10]

def pad4 (n : Nat) : List Nat :=
  [48 + n / 1000 % 10, 48 + n / 100 % 10, 48 + n / 10 % 10, 48 + n % 10]

/-- `.fffffffff` with trailing zeros removed (empty for a whole second),
as in Go layout fragment `.999999999`. -/
def fracNanos (ns : Nat) : List Nat :=
  if ns = 0 then []
  else
    let digits9 :=
      [48 + ns / 100000000 % 10, 48 + ns / 10000000 % 10, 48 + ns / 1000000 % 10,
       48 + ns / 100000 % 10, 48 + ns / 10000 % 10, 48 + ns / 1000 % 10,
       48 + ns / 100 % 10, 48 + ns / 10 % 10, 48 + ns % 10]
    46 :: (digits9.reverse.dropWhile (fun c => c == 48)).reverse

/-- Model of `ts.UTC().Format(time.RFC3339Nano)` for an instant.  Instants
carry no zone, so `UTC()` is the (only) rendering used here.  Years outside
`[0, 9999]` are not produced by the claims below; for them Go would render a
sign/width variation which we do not model. -/
def formatRFC3339Nano (t : Int) : List Nat :=
  let ns := (Int.emod t nsPerSecond).toNat
  let secs := Int.ediv t nsPerSecond
  let days := Int.ediv secs 86400
  let sod := (Int.emod secs 86400).toNat
  let ymd := civilFromDays days
  pad4 ymd.1.toNat ++ (45 :: pad2 ymd.2.1) ++ (45 :: pad2 ymd.2.2) ++
    (84 :: pad2 (sod / 3600)) ++ (58 :: pad2 (sod / 60 % 60)) ++ (58 :: pad2 (sod % 60)) ++
    fracNanos ns ++ [90]

def isDigitByte (c : Nat) : Bool := 48 ≤ c && c ≤ 57

def digitsToNat (ds : List Nat) : Nat := ds.foldl (fun a c => a * 10 + (c - 48)) 0

/-- Parse `n` decimal digits; returns the value and the rest. -/
def takeDigits : Nat → List Nat → Option (Nat × List Nat)
  | 0, s => some (0, s)
  | _ + 1, [] => none
  | n + 1, c :: s => do
      if isDigitByte c then
        let r ← takeDigits n s
        pure ((c - 48) * 10 ^ n + r.1, r.2)
      else none

/-- Fractional seconds after the seconds field: `.` followed by one or more
digits; digits beyond the ninth are read but ignored, as in Go
`parseNanoseconds`.  Returns nanoseconds and the rest. -/
def parseFrac (s : List Nat) : Nat × List Nat :=
  match s with
  | 46 :: c :: rest =>
      if isDigitByte c then
        let ds := (c :: rest).takeWhile isDigitByte
        let rest2 := (c :: rest).dropWhile isDigitByte
        let d9 := ds.take 9
        (digitsToNat d9 * 10 ^ (9 - d9.length), rest2)
      else (0, s)
  | _ => (0, s)

/-- Timezone suffix: `Z`/`z` or `±hh:mm`.  Returns the offset in seconds. -/
def parseOffset (s : List Nat) : Option Int :=
  match s with
  | [90] => some 0
  | [122] => some 0
  | sign :: h1 :: h2 :: 58 :: m1 :: m2 :: [] =>
      if (sign = 43 ∨ sign = 45) ∧ isDigitByte h1 ∧ isDigitByte h2 ∧
          isDigitByte m1 ∧ isDigitByte m2 then
        let hh := digitsToNat [h1, h2]
        let mm := digitsToNat [m1, m2]
        if hh ≤ 23 ∧ mm ≤ 59 then
          let off : Int := hh * 3600 + mm * 60
          some (if sign = 45 then -off else off)
        else none
      else none
  | _ => none

/-- RFC 3339 / RFC 3339 with fractional seconds, to an instant.  Mirrors the
strict `parseRFC3339` path of Go `time.Parse` for the `RFC3339` /
`RFC3339Nano` layouts: fixed field widths, `T` separator, optional
fraction, `Z`/`z` or `±hh:mm` offset, with range checks on every field. -/
def parseRFC3339 (s : List Nat) : Option Int :=
  match s with
  | y1 :: y2 :: y3 :: y4 :: 45 :: m1 :: m2 :: 45 :: d1 :: d2 :: 84 ::
      h1 :: h2 :: 58 :: mi1 :: mi2 :: 58 :: s1 :: s2 :: rest =>
      if isDigitByte y1 ∧ isDigitByte y2 ∧ isDigitByte y3 ∧ isDigitByte y4 ∧
          isDigitByte m1 ∧ isDigitByte m2 ∧ isDigitByte d1 ∧ isDigitByte d2 ∧
          isDigitByte h1 ∧ isDigitByte h2 ∧ isDigitByte mi1 ∧ isDigitByte mi2 ∧
          isDigitByte s1 ∧ isDigitByte s2 then
        let year := digitsToNat [y1, y2, y3, y4]
        let month := digitsToNat [m1, m2]
        let day := digitsToNat [d1, d2]
        let hour := digitsToNat [h1, h2]
        let minute := digitsToNat [mi1, mi2]
        let second := digitsToNat [s1, s2]
        let fr := parseFrac rest
        if 1 ≤ month ∧ month ≤ 12 ∧ 1 ≤ day ∧ day ≤ daysInMonth year month ∧
            hour ≤ 23 ∧ minute ≤ 59 ∧ second ≤ 59 then
          match parseOffset fr.2 with
          | none => none
          | some off =>
              some ((daysFromCivil year month day * 86400 +
                      (hour * 3600 + minute * 60 + second : Nat) - off) * nsPerSecond +
                    (fr.1 : Int))
        else none
      else none
  | _ => none

/-- Model of `signature.ParseTimestamp`: empty values are rejected, then the
value is parsed as RFC 3339 with optional fractional seconds (the
`RFC3339Nano` attempt subsumes the plain `RFC3339` fallback, since Go's
parser accepts an input fraction even for the fraction-less layout). -/
def parseTimestamp (value : List Nat) : Option Int :=
  if value = [] then none else parseRFC3339 value

/-! ## The `signature` package -/

/-- Model of `signature.Material`. -/
structure Material where
  signature : List Nat
  timestamp : Int
  canonicalBody : List Nat
  method : List Nat
  path : List Nat
  rawQuery : List Nat
  headers : List (List Nat × List Nat)

/-- Model of `signature.BuildSigningPayload`:
`RFC3339Nano(UTC(ts)) ++ "." ++ canonicalBody`. -/
def buildSigningPayload (ts : Int) (canonicalBody : List Nat) : List Nat :=
  formatRFC3339Nano ts ++ (46 :: canonicalBody)

inductive SigError
  | emptyKey
  | decodeFailure
  | mismatch
deriving DecidableEq, Repr

/-- Model of `signature.HMACVerifier.Verify`.  (The `mac.Write` error branch
is dead code in Go — `hash.Hash.Write` never returns an error — and has no
counterpart here.) -/
def hmacVerify (key : List Nat) (material : Material) : Except SigError Unit :=
  if key.length = 0 then .error .emptyKey
  else
    let signingInput := buildSigningPayload material.timestamp material.canonicalBody
    let expected := hmacSHA256 key signingInput
    match b64Decode material.signature with
    | none => .error .decodeFailure
    | some decoded =>
        if hmacEqual decoded expected then .ok () else .error .mismatch

/-! ## Error taxonomy (`errors.go`) -/

def invalidRequestType : String := "invalid_request"
def processingErrorType : String := "processing_error"
def rateLimitExceededType : String := "rate_limit_exceeded"
def serviceUnavailableType : String := "service_unavailable"

def invalidSignatureCode : String := "invalid_signature"
def signatureRequiredCode : String := "signature_required"
def staleTimestampCode : String := "stale_timestamp"
def missingAuthorizationCode : String := "missing_authorization"
def invalidAuthorizationCode : String := "invalid_authorization"

/-- Model of `acp.Error` (type, code, message, optional param, transport
status hint and retry-after duration). -/
structure ACPError where
  etype : String
  code : String
  message : String
  param : Option String := none
  status : Nat := 0
  retryAfter : Int := 0
deriving DecidableEq, Repr

/-- Model of `acp.NewHTTPError`. -/
def newHTTPError (status : Nat) (etype code message : String) : ACPError :=
  { etype := etype, code := code, message := message, status := status }

/-- Model of `acp.NewInvalidRequestError`. -/
def newInvalidRequestError (message : String) : ACPError :=
  newHTTPError 400 invalidRequestType invalidRequestType message

/-- Model of `acp.NewProcessingError`. -/
def newProcessingError (message : String) : ACPError :=
  newHTTPError 500 processingErrorType processingErrorType message

/-! ## Retry-After (`httptransport.go`) -/

/-- Model of `retryAfterSeconds`.  The Go divisions are `int64` divisions;
they only run on a positive duration, where every division convention
agrees. -/
def retryAfterSeconds (d : Int) : Int :=
  if d ≤ 0 then 0
  else
    let seconds := d / secondDuration
    let seconds := if d % secondDuration ≠ 0 then seconds + 1 else seconds
    if seconds ≤ 0 then 1 else seconds

/-- The `Retry-After` header written by `writeJSONError`: present exactly
when `retryAfterSeconds` of the payload's retry duration is positive. -/
def retryAfterHeaderValue (payload : ACPError) : Option Int :=
  let seconds := retryAfterSeconds payload.retryAfter
  if 0 < seconds then some seconds else none

/-! ## String trimming (`strings.TrimSpace` / `bytes.TrimSpace`) -/

/-- `unicode.IsSpace`, on code points. -/
def isUnicodeSpace (c : Nat) : Bool :=
  c == 32 || (9 ≤ c && c ≤ 13) || c == 133 || c == 160 || c == 5760 ||
  (8192 ≤ c && c ≤ 8202) || c == 8232 || c == 8233 || c == 8239 ||
  c == 8287 || c == 12288

/-- Model of `strings.TrimSpace` / `bytes.TrimSpace`. -/
def trimSpace (s : List Nat) : List Nat :=
  ((s.dropWhile isUnicodeSpace).reverse.dropWhile isUnicodeSpace).reverse

/-! ## JSON values and canonicalization

Model of `signature.CanonicalizeJSONBody`, which composes Go's
`encoding/json` decoder (with `UseNumber`, so number literals survive
parsing exactly) with `canonicaljson.Marshal`.  The composition is a pure
function from input bytes to canonical bytes; we model it as parsing into a
value that is already in canonical form — number literals reduced to a
sign/coefficient/exponent normal form that preserves the numeric value
exactly, object fields held sorted by byte-lexicographic key order with a
later duplicate key replacing an earlier one (Go decodes objects into a
string-keyed map), and then serializing that value deterministically.

The serializer for the canonical form is `Modelled from the spec:` the
`canonicaljson` library itself is a third-party dependency whose source is
not part of this repository; its output format here follows the spec's
words — object keys sorted by byte value, no insignificant whitespace, a
single deterministic number representation preserving numeric value
exactly, and fixed string escaping rules.

Characters are Unicode code points (see the header).  Strings as parsed may
contain any code points; escape sequences including surrogate pairs are
decoded, with an unpaired surrogate becoming U+FFFD exactly as in Go.
-/

inductive JVal where
  | jnull
  | jbool (b : Bool)
  | jnum (neg : Bool) (coeff : Nat) (exp : Int)
  | jstr (s : List Nat)
  | jarr (elems : List JVal)
  | jobj (fields : List (List Nat × JVal))

/-- Byte-lexicographic comparison of keys (UTF-8 order; code-point order and
UTF-8 byte order agree). -/
def lexCmp : List Nat → List Nat → Ordering
  | [], [] => .eq
  | [], _ :: _ => .lt
  | _ :: _, [] => .gt
  | a :: as, b :: bs => if a < b then .lt else if b < a then .gt else lexCmp as bs

/-- Insert a field into a key-sorted field list; an existing field with the
same key is replaced (later duplicate wins, as for a Go map). -/
def insertField (k : List Nat) (v : JVal) :
    List (List Nat × JVal) → List (List Nat × JVal)
  | [] => [(k, v)]
  | (k2, v2) :: rest =>
      match lexCmp k k2 with
      | .lt => (k, v) :: (k2, v2) :: rest
      | .eq => (k, v) :: rest
      | .gt => (k2, v2) :: insertField k v rest

/-- Remove factors of ten: `strip10 m = (c, k)` with `m = c * 10^k` and
`¬ 10 ∣ c` (for `m ≠ 0`). -/
def strip10 (m : Nat) : Nat × Nat :=
  if h : m ≠ 0 ∧ m % 10 = 0 then
    let p := strip10 (m / 10)
    (p.1, p.2 + 1)
  else (m, 0)
termination_by m
decreasing_by exact Nat.div_lt_self (Nat.pos_of_ne_zero h.1) (by omega)

/-- Normal form of a parsed number literal of value `(-1)^neg * m * 10^e`. -/
def mkNum (neg : Bool) (m : Nat) (e : Int) : JVal :=
  if m = 0 then .jnum false 0 0
  else
    let p := strip10 m
    .jnum neg p.1 (e + p.2)

/-- JSON insignificant whitespace (the set Go's scanner skips). -/
def isJsonWs (c : Nat) : Bool := c == 32 || c == 9 || c == 10 || c == 13

def skipWs (s : List Nat) : List Nat := s.dropWhile isJsonWs

def hexVal (c : Nat) : Option Nat :=
  if 48 ≤ c ∧ c ≤ 57 then some (c - 48)
  else if 97 ≤ c ∧ c ≤ 102 then some (c - 87)
  else if 65 ≤ c ∧ c ≤ 70 then some (c - 55)
  else none

def hex4 (a b c d : Nat) : Option Nat := do
  let va ← hexVal a
  let vb ← hexVal b
  let vc ← hexVal c
  let vd ← hexVal d
  pure (((va * 16 + vb) * 16 + vc) * 16 + vd)

/-- String body after an opening quote, with fuel (each produced code point
consumes one unit, and consumes at least one input byte, so the
`length + 1` fuel given by `parseStringBody` can never run out).  Returns
the code points and the rest after the closing quote.  `\uXXXX` decodes
surrogate pairs; an unpaired surrogate half becomes U+FFFD, exactly as in
Go's `unquoteBytes`. -/
def parseStrAux : Nat → List Nat → Option (List Nat × List Nat)
  | 0, _ => none
  | _, [] => none
  | fuel + 1, c :: rest =>
      if c = 34 then some ([], rest)
      else if c = 92 then
        match rest with
        | [] => none
        | e :: r =>
            if e = 34 ∨ e = 92 ∨ e = 47 then
              (parseStrAux fuel r).map (fun p => (e :: p.1, p.2))
            else if e = 98 then (parseStrAux fuel r).map (fun p => (8 :: p.1, p.2))
            else if e = 102 then (parseStrAux fuel r).map (fun p => (12 :: p.1, p.2))
            else if e = 110 then (parseStrAux fuel r).map (fun p => (10 :: p.1, p.2))
            else if e = 114 then (parseStrAux fuel r).map (fun p => (13 :: p.1, p.2))
            else if e = 116 then (parseStrAux fuel r).map (fun p => (9 :: p.1, p.2))
            else if e = 117 then
              match r with
              | a :: b :: c1 :: d :: r2 =>
                  match hex4 a b c1 d with
                  | none => none
                  | some cp =>
                      if 55296 ≤ cp ∧ cp < 56320 then
                        match r2 with
                        | 92 :: 117 :: a2 :: b2 :: c2 :: d2 :: r3 =>
                            match hex4 a2 b2 c2 d2 with
                            | some cp2 =>
                                if 56320 ≤ cp2 ∧ cp2 < 57344 then
                                  (parseStrAux fuel r3).map
                                    (fun p =>
                                      ((65536 + (cp - 55296) * 1024 + (cp2 - 56320)) ::
                                        p.1, p.2))
                                else (parseStrAux fuel r2).map (fun p => (65533 :: p.1, p.2))
                            | none => (parseStrAux fuel r2).map (fun p => (65533 :: p.1, p.2))
                        | _ => (parseStrAux fuel r2).map (fun p => (65533 :: p.1, p.2))
                      else if 56320 ≤ cp ∧ cp < 57344 then
                        (parseStrAux fuel r2).map (fun p => (65533 :: p.1, p.2))
                      else (parseStrAux fuel r2).map (fun p => (cp :: p.1, p.2))
              | _ => none
            else none
      else if c < 32 then none
      else (parseStrAux fuel rest).map (fun p => (c :: p.1, p.2))

/-- String body after the opening quote. -/
def parseStringBody (s : List Nat) : Option (List Nat × List Nat) :=
  parseStrAux (s.length + 1) s

def splitSign (s : List Nat) : Bool × List Nat :=
  if s.head? = some 45 then (true, s.tail) else (false, s)

def parseIntPart (s : List Nat) : Option (List Nat × List Nat) :=
  match s with
  | [] => none
  | c :: r =>
      if c = 48 then some ([48], r)
      else if 49 ≤ c ∧ c ≤ 57 then
        some (c :: r.takeWhile isDigitByte, r.dropWhile isDigitByte)
      else none

def parseFracDigits (s : List Nat) : Option (List Nat × List Nat) :=
  if s.head? = some 46 then
    let ds := s.tail.takeWhile isDigitByte
    if ds = [] then none else some (ds, s.tail.dropWhile isDigitByte)
  else some ([], s)

def parseExpPart (s : List Nat) : Option (Int × List Nat) :=
  if s.head? = some 101 ∨ s.head? = some 69 then
    let r := s.tail
    let negE := r.head? = some 45
    let r2 := if r.head? = some 45 ∨ r.head? = some 43 then r.tail else r
    let ds := r2.takeWhile isDigitByte
    if ds = [] then none
    else
      some ((if negE then -(digitsToNat ds : Int) else (digitsToNat ds : Int)),
            r2.dropWhile isDigitByte)
  else some (0, s)

/-- A JSON number literal, reduced to normal form. -/
def parseNumber (s : List Nat) : Option (JVal × List Nat) :=
  match parseIntPart (splitSign s).2 with
  | none => none
  | some ip =>
      match parseFracDigits ip.2 with
      | none => none
      | some fp =>
          match parseExpPart fp.2 with
          | none => none
          | some ep =>
              some (mkNum (splitSign s).1 (digitsToNat (ip.1 ++ fp.1))
                (ep.1 - fp.1.length), ep.2)

mutual

/-- One JSON value.  Fuel decreases on every recursive call; each fuel level
consumes at least one input byte first, so `length input + 1` fuel can never
be exhausted (the fuel-out answer `none` is unreachable from
`canonicalizeJSONBody`). -/
def parseVal : Nat → List Nat → Option (JVal × List Nat)
  | 0, _ => none
  | fuel + 1, s =>
      match skipWs s with
      | 110 :: 117 :: 108 :: 108 :: r => some (.jnull, r)
      | 116 :: 114 :: 117 :: 101 :: r => some (.jbool true, r)
      | 102 :: 97 :: 108 :: 115 :: 101 :: r => some (.jbool false, r)
      | 34 :: r => (parseStringBody r).map (fun p => (.jstr p.1, p.2))
      | 123 :: r => parseMembersFirst fuel r
      | 91 :: r => parseElemsFirst fuel r
      | s2 => parseNumber s2

def parseElemsFirst : Nat → List Nat → Option (JVal × List Nat)
  | 0, _ => none
  | fuel + 1, s =>
      match skipWs s with
      | 93 :: r => some (.jarr [], r)
      | s2 => do
          let vr ← parseVal fuel s2
          parseElemsRest fuel [vr.1] vr.2

def parseElemsRest : Nat → List JVal → List Nat → Option (JVal × List Nat)
  | 0, _, _ => none
  | fuel + 1, acc, s =>
      match skipWs s with
      | 44 :: r => do
          let vr ← parseVal fuel r
          parseElemsRest fuel (acc ++ [vr.1]) vr.2
      | 93 :: r => some (.jarr acc, r)
      | _ => none

/-- One `"key": value` member. -/
def parseMember : Nat → List Nat → Option ((List Nat × JVal) × List Nat)
  | 0, _ => none
  | fuel + 1, s =>
      match skipWs s with
      | 34 :: r => do
          let kr ← parseStringBody r
          match skipWs kr.2 with
          | 58 :: r2 => do
              let vr ← parseVal fuel r2
              pure ((kr.1, vr.1), vr.2)
          | _ => none
      | _ => none

def parseMembersFirst : Nat → List Nat → Option (JVal × List Nat)
  | 0, _ => none
  | fuel + 1, s =>
      match skipWs s with
      | 125 :: r => some (.jobj [], r)
      | s2 => do
          let mr ← parseMember fuel s2
          parseMembersRest fuel (insertField mr.1.1 mr.1.2 []) mr.2

def parseMembersRest : Nat → List (List Nat × JVal) → List Nat → Option (JVal × List Nat)
  | 0, _, _ => none
  | fuel + 1, acc, s =>
      match skipWs s with
      | 44 :: r => do
          let mr ← parseMember fuel r
          parseMembersRest fuel (insertField mr.1.1 mr.1.2 acc) mr.2
      | 125 :: r => some (.jobj acc, r)
      | _ => none

end

def hexDigitChar (n : Nat) : Nat := if n < 10 then 48 + n else 87 + n

/-- Canonical escaping of one code point inside a string. -/
def canonEscapeChar (c : Nat) : List Nat :=
  if c = 34 then [92, 34]
  else if c = 92 then [92, 92]
  else if c = 8 then [92, 98]
  else if c = 9 then [92, 116]
  else if c = 10 then [92, 110]
  else if c = 12 then [92, 102]
  else if c = 13 then [92, 114]
  else if c < 32 then [92, 117, 48, 48, hexDigitChar (c / 16), hexDigitChar (c % 16)]
  else [c]

def serializeStringBody (s : List Nat) : List Nat := (s.map canonEscapeChar).flatten

def serializeString (s : List Nat) : List Nat := 34 :: serializeStringBody s ++ [34]

/-- Canonical rendering of a normal-form number: plain decimal for a
non-negative exponent, `<digits>E-<digits>` otherwise; zero is `0`. -/
def serializeNumber (neg : Bool) (c : Nat) (e : Int) : List Nat :=
  if c = 0 then [48]
  else
    let mant :=
      if 0 ≤ e then natDigits (c * 10 ^ e.toNat)
      else natDigits c ++ (69 :: 45 :: natDigits (-e).toNat)
    if neg then 45 :: mant else mant

mutual

/-- Canonical serialization of a value (`canonicaljson.Marshal`, modelled
from the spec). -/
def serialize : JVal → List Nat
  | .jnull => [110, 117, 108, 108]
  | .jbool true => [116, 114, 117, 101]
  | .jbool false => [102, 97, 108, 115, 101]
  | .jnum neg c e => serializeNumber neg c e
  | .jstr s => serializeString s
  | .jarr xs => 91 :: serializeElems xs
  | .jobj fs => 123 :: serializeFields fs

def serializeElems : List JVal → List Nat
  | [] => [93]
  | x :: xs => serialize x ++ serializeElemsRest xs

def serializeElemsRest : List JVal → List Nat
  | [] => [93]
  | x :: xs => 44 :: (serialize x ++ serializeElemsRest xs)

def serializeFields : List (List Nat × JVal) → List Nat
  | [] => [125]
  | (k, v) :: fs => serializeString k ++ (58 :: serialize v) ++ serializeFieldsRest fs

def serializeFieldsRest : List (List Nat × JVal) → List Nat
  | [] => [125]
  | (k, v) :: fs =>
      44 :: (serializeString k ++ (58 :: serialize v) ++ serializeFieldsRest fs)

end

/-- Strict byte-wise key sortedness of an object's field list (every key
strictly below every later key). -/
def fieldsSortedB : List (List Nat × JVal) → Bool
  | [] => true
  | (k, _) :: fs =>
      fs.all (fun p => decide (lexCmp k p.1 = Ordering.lt)) && fieldsSortedB fs

/-- Normality of a number in the canonical value form: zero is
`jnum false 0 0`, otherwise the coefficient has no trailing zero. -/
def normalNumB (neg : Bool) (c : Nat) (e : Int) : Bool :=
  if c = 0 then !neg && e == 0 else decide (c % 10 ≠ 0)

mutual

/-- The canonical forms: exactly the values `parseVal` can produce. -/
def isNormal : JVal → Bool
  | .jnull => true
  | .jbool _ => true
  | .jnum neg c e => normalNumB neg c e
  | .jstr _ => true
  | .jarr xs => allNormalB xs
  | .jobj fs => fieldsSortedB fs && fieldsNormalB fs

def allNormalB : List JVal → Bool
  | [] => true
  | x :: xs => isNormal x && allNormalB xs

def fieldsNormalB : List (List Nat × JVal) → Bool
  | [] => true
  | (_, v) :: fs => isNormal v && fieldsNormalB fs

end

mutual

/-- Fuel sufficient for `parseVal` on the serialization of a value. -/
def wVal : JVal → Nat
  | .jnull => 1
  | .jbool _ => 1
  | .jnum _ _ _ => 1
  | .jstr _ => 1
  | .jarr xs => 1 + wElemsFirst xs
  | .jobj fs => 1 + wMembersFirst fs

def wElemsFirst : List JVal → Nat
  | [] => 1
  | x :: xs => 1 + max (wVal x) (wElemsRest xs)

def wElemsRest : List JVal → Nat
  | [] => 1
  | x :: xs => 1 + max (wVal x) (wElemsRest xs)

def wMembersFirst : List (List Nat × JVal) → Nat
  | [] => 1
  | (_, v) :: fs => 1 + max (1 + wVal v) (wMembersRest fs)

def wMembersRest : List (List Nat × JVal) → Nat
  | [] => 1
  | (_, v) :: fs => 1 + max (1 + wVal v) (wMembersRest fs)

end

/-- What may legally follow a serialized value without extending a number
literal: nothing, or a byte that is not a digit and none of `.`, `e`, `E`. -/
def sepOk : List Nat → Prop
  | [] => True
  | c :: _ => isDigitByte c = false ∧ c ≠ 46 ∧ c ≠ 101 ∧ c ≠ 69

instance : DecidablePred sepOk := fun s => by
  unfold sepOk
  cases s <;> infer_instance

/-- Folding `insertField` over a field list (what the object member loops
of the parsing functions compute). -/
def insFold (acc : List (List Nat × JVal)) (fs : List (List Nat × JVal)) :
    List (List Nat × JVal) :=
  fs.foldl (fun a p => insertField p.1 p.2 a) acc

/-- Go `json.Decoder.More`: skip whitespace and report whether a byte other
than `]` or `}` remains. -/
def decMore (s : List Nat) : Bool :=
  match skipWs s with
  | [] => false
  | c :: _ => decide (c ≠ 93) && decide (c ≠ 125)

/-- Model of `signature.CanonicalizeJSONBody`. -/
def canonicalizeJSONBody (raw : List Nat) : Option (List Nat) :=
  if trimSpace raw = [] then some [110, 117, 108, 108]
  else
    match parseVal (raw.length + 1) raw with
    | none => none
    | some vr => if decMore vr.2 then none else some (serialize vr.1)

/-! Number-normality of every number literal in a value, with no
requirement on object key order: exactly the values whose serialization a
JSON parser reads back without numeric loss.  Used to quantify over
arbitrary (possibly unsorted) serializations of an object. -/
mutual

def wfVal : JVal → Bool
  | .jnull => true
  | .jbool _ => true
  | .jnum neg c e => normalNumB neg c e
  | .jstr _ => true
  | .jarr xs => wfList xs
  | .jobj fs => wfFields fs

def wfList : List JVal → Bool
  | [] => true
  | x :: xs => wfVal x && wfList xs

def wfFields : List (List Nat × JVal) → Bool
  | [] => true
  | (_, v) :: fs => wfVal v && wfFields fs

end

/-! The value the parser reconstructs from a serialization: object field
lists are rebuilt through the `insertField` accumulation (key-sorted, a
later duplicate key replacing an earlier one). -/
mutual

def canonValue : JVal → JVal
  | .jnull => .jnull
  | .jbool b => .jbool b
  | .jnum neg c e => .jnum neg c e
  | .jstr s => .jstr s
  | .jarr xs => .jarr (canonList xs)
  | .jobj fs => .jobj (insFold [] (canonFields fs))

def canonList : List JVal → List JVal
  | [] => []
  | x :: xs => canonValue x :: canonList xs

def canonFields : List (List Nat × JVal) → List (List Nat × JVal)
  | [] => []
  | (k, v) :: fs => (k, canonValue v) :: canonFields fs

end

/-! ## Inbound requests and middleware outcomes -/

/-- The parts of an `*http.Request` the middlewares read.  The named header
fields hold the raw values of `r.Header.Get` for the corresponding keys;
`headers` is the full header set passed through into `Material`. -/
structure HTTPRequest where
  signatureHeader : List Nat := []
  timestampHeader : List Nat := []
  authorizationHeader : List Nat := []
  body : List Nat := []
  method : List Nat := []
  path : List Nat := []
  rawQuery : List Nat := []
  headers : List (List Nat × List Nat) := []

/-- What a middleware does with a request: pass it to the next handler or
reject it by writing a structured error. -/
inductive MWOutcome where
  | next
  | reject (e : ACPError)
deriving DecidableEq, Repr

/-- Model of `signatureMiddlewareConfig`.  A custom verifier is any function
of the material; `true` models a nil error.  `now` is the value
`cfg.Clock()` returns during the request. -/
structure SigMWConfig where
  verifier : Option (Material → Bool)
  requireSigned : Bool
  maxClockSkew : Int
  now : Int

/-- The error written when the skew check fails.  The Go message renders the
configured duration with `time.Duration.String`; the rendering is
abstracted to the decimal nanosecond count (no claim depends on message
text). -/
def staleTimestampError (maxClockSkew : Int) : ACPError :=
  newHTTPError 401 invalidRequestType staleTimestampCode
    ("timestamp skew exceeds " ++ toString maxClockSkew)

/-- Model of `newSignatureMiddleware`: `none` when no verifier is
configured (the handler wires no middleware at all in that case). -/
def newSignatureMiddleware (cfg : SigMWConfig) :
    Option (HTTPRequest → MWOutcome) :=
  match cfg.verifier with
  | none => none
  | some verifier =>
      some (fun r =>
        if trimSpace r.signatureHeader = [] ∧ trimSpace r.timestampHeader = [] then
          if cfg.requireSigned then
            .reject (newHTTPError 401 invalidRequestType signatureRequiredCode
              "Signature and Timestamp headers are required")
          else .next
        else if trimSpace r.signatureHeader = [] ∨ trimSpace r.timestampHeader = [] then
          .reject (newHTTPError 400 invalidRequestType invalidSignatureCode
            "Signature and Timestamp headers must both be provided")
        else
          match parseTimestamp (trimSpace r.timestampHeader) with
          | none =>
              .reject (newHTTPError 400 invalidRequestType invalidSignatureCode
                "Timestamp must be RFC3339")
          | some ts =>
              if 0 < cfg.maxClockSkew ∧ cfg.maxClockSkew < absDuration (cfg.now - ts) then
                .reject (staleTimestampError cfg.maxClockSkew)
              else
                match canonicalizeJSONBody r.body with
                | none => .reject (newInvalidRequestError "request body must be valid JSON")
                | some canonicalBody =>
                    let material : Material :=
                      { signature := trimSpace r.signatureHeader, timestamp := ts,
                        canonicalBody := canonicalBody, method := r.method,
                        path := r.path, rawQuery := r.rawQuery,
                        headers := r.headers }
                    if verifier material then
                      .next
                    else
                      .reject (newHTTPError 401 invalidRequestType invalidSignatureCode
                        "signature verification failed"))

/-- `signature.HMACVerifier` as a middleware verifier (nil error ↔ `.ok`). -/
def hmacVerifierOk (key : List Nat) (material : Material) : Bool :=
  match hmacVerify key material with
  | .ok _ => true
  | .error _ => false

/-! ## Authentication middleware -/

/-- Result of `Authenticator.Authenticate`: success, a typed `*acp.Error`
(matched by `errors.As`), or any other non-nil error (carrying some
message that must not reach the client). -/
inductive AuthResult where
  | ok
  | typedErr (e : ACPError)
  | opaqueErr (message : String)

/-- `strings.Cut(s, " ")`: the part before the first space, the part after
it, or `none` when there is no space. -/
def cutSpace : List Nat → Option (List Nat × List Nat)
  | [] => none
  | c :: rest =>
      if c = 32 then some ([], rest)
      else (cutSpace rest).map (fun p => (c :: p.1, p.2))

def asciiFold (c : Nat) : Nat := if 65 ≤ c ∧ c ≤ 90 then c + 32 else c

/-- `strings.EqualFold`, restricted to the ASCII folding (Go performs
Unicode simple folding; the two agree on comparisons against the literal
`"Bearer"`, the only use in the source). -/
def equalFold (a b : List Nat) : Bool := a.map asciiFold == b.map asciiFold

def bearerBytes : List Nat := [66, 101, 97, 114, 101, 114]

/-- Model of `DelegatedPaymentHandler.authenticationMiddleware`. -/
def authenticationMiddleware (auth : Option (List Nat → AuthResult))
    (r : HTTPRequest) : MWOutcome :=
  match auth with
  | none => .next
  | some authenticate =>
      let authHeader := trimSpace r.authorizationHeader
      if authHeader = [] then
        .reject (newHTTPError 401 invalidRequestType missingAuthorizationCode
          "Authorization header is required")
      else
        match cutSpace authHeader with
        | none =>
            .reject (newHTTPError 401 invalidRequestType invalidAuthorizationCode
              "Authorization header must be in the format Bearer api_key")
        | some sk =>
            if ¬ equalFold sk.1 bearerBytes then
              .reject (newHTTPError 401 invalidRequestType invalidAuthorizationCode
                "Authorization header must be in the format Bearer api_key")
            else if sk.2 = [] then
              .reject (newHTTPError 401 invalidRequestType invalidAuthorizationCode
                "API key is required")
            else
              match authenticate sk.2 with
              | .ok => .next
              | .typedErr e => .reject e
              | .opaqueErr _ =>
                  .reject (newHTTPError 401 invalidRequestType invalidAuthorizationCode
                    "invalid API key")

/-! ## Outbound webhooks (`checkout_webhook.go`) -/

/-- `Modelled from the spec:` the `APIVersion` constant is declared in a
file of this repository that is not under `src/`; only its use sites are
visible.  Its concrete value is irrelevant to every claim. -/
def apiVersion : List Nat := [50, 48, 50, 53, 45, 48, 57, 45, 49, 50]

/-- Model of `webhookConfig` (endpoint, header name, HMAC secret). -/
structure WebhookCfg where
  endpoint : List Nat
  header : List Nat
  secret : List Nat

structure Refund where
  rtype : List Nat
  amount : Int

/-- The shared shape of `OrderCreate` / `OrderUpdated` payloads. -/
structure OrderPayload where
  dataType : List Nat
  checkoutSessionID : List Nat
  permalinkURL : List Nat
  status : List Nat
  refunds : List Refund

inductive EventData where
  | orderCreate (p : OrderPayload)
  | orderUpdated (p : OrderPayload)

/-- `EventData.eventType()`. -/
def eventDataType : EventData → List Nat
  | .orderCreate _ => [111, 114, 100, 101, 114, 95, 99, 114, 101, 97, 116, 101, 100]
  | .orderUpdated _ => [111, 114, 100, 101, 114, 95, 117, 112, 100, 97, 116, 101, 100]

/-- `encoding/json` string escaping (with the default HTML escaping of
`&`, `<`, `>` and of U+2028/U+2029, as `json.Marshal` performs). -/
def goJsonEscapeChar (c : Nat) : List Nat :=
  if c = 34 then [92, 34]
  else if c = 92 then [92, 92]
  else if c = 10 then [92, 110]
  else if c = 13 then [92, 114]
  else if c = 9 then [92, 116]
  else if c < 32 then [92, 117, 48, 48, hexDigitChar (c / 16), hexDigitChar (c % 16)]
  else if c = 38 then [92, 117, 48, 48, 50, 54]
  else if c = 60 then [92, 117, 48, 48, 51, 99]
  else if c = 62 then [92, 117, 48, 48, 51, 101]
  else if c = 8232 then [92, 117, 50, 48, 50, 56]
  else if c = 8233 then [92, 117, 50, 48, 50, 57]
  else [c]

def goJsonString (s : List Nat) : List Nat :=
  34 :: (s.map goJsonEscapeChar).flatten ++ [34]

def intDecimal (n : Int) : List Nat :=
  if n < 0 then 45 :: natDigits n.natAbs else natDigits n.toNat

/-- ASCII bytes of a literal. -/
def ascii (s : String) : List Nat := s.toList.map (fun c => c.toNat)

/-- A quoted JSON key (keys used here contain nothing to escape). -/
def jsonKey (s : String) : List Nat := 34 :: ascii s ++ [34, 58]

def commaSeparated : List (List Nat) → List Nat
  | [] => []
  | [x] => x
  | x :: xs => x ++ (44 :: commaSeparated xs)

/-- `json.Marshal` of a `Refund`. -/
def marshalRefund (r : Refund) : List Nat :=
  123 :: jsonKey "type" ++ goJsonString r.rtype ++
  (44 :: jsonKey "amount" ++ intDecimal r.amount) ++ [125]

/-- `json.Marshal` of the refunds slice.  (A Go nil slice would render
`null`; the model always renders a JSON array — the distinction is
invisible to every claim.) -/
def marshalRefunds (rs : List Refund) : List Nat :=
  91 :: commaSeparated (rs.map marshalRefund) ++ [93]

/-- `json.Marshal` of an `OrderCreate` / `OrderUpdated` value: fields in
declaration order under their JSON tags. -/
def marshalOrderPayload (p : OrderPayload) : List Nat :=
  123 :: jsonKey "type" ++ goJsonString p.dataType ++
  (44 :: jsonKey "checkout_session_id" ++ goJsonString p.checkoutSessionID) ++
  (44 :: jsonKey "permalink_url" ++ goJsonString p.permalinkURL) ++
  (44 :: jsonKey "status" ++ goJsonString p.status) ++
  (44 :: jsonKey "refunds" ++ marshalRefunds p.refunds) ++ [125]

def marshalEventData : EventData → List Nat
  | .orderCreate p => marshalOrderPayload p
  | .orderUpdated p => marshalOrderPayload p

/-- `json.Marshal` of the `webhookEvent{Type, Data}` envelope: the struct
fields `Type` and `Data` in declaration order. -/
def marshalWebhookEvent (ev : EventData) : List Nat :=
  123 :: jsonKey "type" ++ goJsonString (eventDataType ev) ++
  (44 :: jsonKey "data" ++ marshalEventData ev) ++ [125]

/-- Model of `signWebhookPayload`. -/
def signWebhookPayload (secret payload : List Nat) : List Nat :=
  b64Encode (hmacSHA256 secret payload)

/-- The outbound HTTP request `SendWebhook` builds. -/
structure OutboundRequest where
  url : List Nat
  headers : List (List Nat × List Nat)
  reqBody : List Nat

structure HTTPResponse where
  status : Nat
  respBody : List Nat

/-- What one call of `client.Do` yields: a transport error or a response. -/
def ClientBehavior : Type := Nat → Except Unit HTTPResponse

inductive WebhookError where
  | notConfigured
  | transport
  | non2xx (status : Nat) (snippet : List Nat)
deriving Repr

/-- `http.Header.Set`: replaces any value previously held under the key.
(Go canonicalizes MIME header keys; the claims never depend on casing.) -/
def headerSet (hs : List (List Nat × List Nat)) (k v : List Nat) :
    List (List Nat × List Nat) :=
  (k, v) :: hs.filter (fun p => !(p.1 == k))

/-- Look a header up in an assembled header list (`http.Header.Get`). -/
def headerGet (hs : List (List Nat × List Nat)) (k : List Nat) : Option (List Nat) :=
  (hs.find? (fun p => p.1 == k)).map (fun p => p.2)

/-- Model of `CheckoutHandler.SendWebhook`.  The `client` is indexed by the
number of `Do` calls made so far; the returned counter exposes how many
calls the function performed (exactly one when configured — there is no
internal retry).  Returns (result, request sent if any, new call count).
The `json.Marshal` error branch is dead for these payload types and has no
counterpart. -/
def sendWebhook (webhook : Option WebhookCfg) (ev : EventData)
    (client : ClientBehavior) (calls : Nat) :
    Except WebhookError Unit × Option OutboundRequest × Nat :=
  match webhook with
  | none => (.error .notConfigured, none, calls)
  | some cfg =>
      let payload := marshalWebhookEvent ev
      let req : OutboundRequest :=
        { url := cfg.endpoint,
          headers :=
            headerSet
              (headerSet
                (headerSet [] (ascii "Content-Type") (ascii "application/json"))
                (ascii "API-Version") apiVersion)
              cfg.header (signWebhookPayload cfg.secret payload),
          reqBody := payload }
      match client calls with
      | .error _ => (.error .transport, some req, calls + 1)
      | .ok resp =>
          if 200 ≤ resp.status ∧ resp.status < 300 then (.ok (), some req, calls + 1)
          else (.error (.non2xx resp.status (resp.respBody.take 4096)), some req, calls + 1)

/-! ## Handler construction (`NewCheckoutHandler` / `NewDelegatedPaymentHandler`) -/

/-- The functional options of the package, as the closed set the API
offers.  (`WithMaxClockSkew` panics before producing an option when given
a non-positive skew, so an option value carries the skew it will set.) -/
inductive HandlerOption where
  | withSignatureVerifier (v : Material → Bool)
  | withMaxClockSkew (skew : Int)
  | withRequireSignedRequests
  | withAuthenticator (a : List Nat → AuthResult)
  | withMiddleware
  | withWebhookOptions (w : WebhookCfg)
  | withClock (now : Int)

/-- Model of the resolved `config` struct. -/
structure HandlerConfig where
  signatureVerifier : Option (Material → Bool) := none
  maxClockSkew : Int := 0
  requireSignedRequests : Bool := false
  authenticator : Option (List Nat → AuthResult) := none
  now : Int := 0
  webhook : Option WebhookCfg := none

def applyOption (cfg : HandlerConfig) : HandlerOption → HandlerConfig
  | .withSignatureVerifier v => { cfg with signatureVerifier := some v }
  | .withMaxClockSkew skew => { cfg with maxClockSkew := skew }
  | .withRequireSignedRequests => { cfg with requireSignedRequests := true }
  | .withAuthenticator a => { cfg with authenticator := some a }
  | .withMiddleware => cfg
  | .withWebhookOptions w => { cfg with webhook := some w }
  | .withClock now => { cfg with now := now }

/-- Defaults (`maxClockSkew: 5 * time.Minute`, `clock: time.Now` — the
sampled now is a parameter) followed by the option fold, as both
constructors perform it. -/
def resolveConfig (startNow : Int) (opts : List HandlerOption) : HandlerConfig :=
  opts.foldl applyOption { maxClockSkew := 300000000000, now := startNow }

structure CheckoutHandlerModel where
  cfg : HandlerConfig

structure DelegatedPaymentHandlerModel where
  cfg : HandlerConfig

/-- Model of `NewCheckoutHandler`: `.error` is the constructor panicking. -/
def newCheckoutHandler (startNow : Int) (opts : List HandlerOption) :
    Except String CheckoutHandlerModel :=
  let cfg := resolveConfig startNow opts
  if cfg.requireSignedRequests ∧ cfg.signatureVerifier.isNone then
    .error "checkout: signature verifier required when signed requests are enforced"
  else .ok { cfg := cfg }

/-- Model of `NewDelegatedPaymentHandler` (the `service == nil` panic is a
separate guard on an argument that cannot be nil in this model). -/
def newDelegatedPaymentHandler (startNow : Int) (opts : List HandlerOption) :
    Except String DelegatedPaymentHandlerModel :=
  let cfg := resolveConfig startNow opts
  if cfg.requireSignedRequests ∧ cfg.signatureVerifier.isNone then
    .error "delegatedpayment: signature verifier required when signed requests are enforced"
  else .ok { cfg := cfg }

end Acp

/-! # Theorems -/

namespace Acp

/-! ## Shared helper lemmas -/

theorem xor_zero_iff (a b : Nat) : Nat.xor a b = 0 ↔ a = b := Nat.xor_eq_zero

theorem lor_zero_iff (a b : Nat) : Nat.lor a b = 0 ↔ a = 0 ∧ b = 0 := by
  constructor
  · intro h
    have h' : a ||| b = 0 := h
    have h2 : ∀ i, (a ||| b).testBit i = false := by
      intro i; rw [h']; exact Nat.zero_testBit i
    simp only [Nat.testBit_lor, Bool.or_eq_false_iff] at h2
    constructor
    · apply Nat.eq_of_testBit_eq
      intro i; rw [(h2 i).1, Nat.zero_testBit]
    · apply Nat.eq_of_testBit_eq
      intro i; rw [(h2 i).2, Nat.zero_testBit]
  · rintro ⟨rfl, rfl⟩; rfl

theorem foldl_lor_eq_zero (l : List (Nat × Nat)) (a : Nat) :
    (l.foldl (fun v p => Nat.lor v (Nat.xor p.1 p.2)) a = 0) ↔
      (a = 0 ∧ ∀ p ∈ l, p.1 = p.2) := by
  induction l generalizing a with
  | nil => simp
  | cons hd tl ih =>
      simp only [List.foldl_cons, ih, lor_zero_iff, xor_zero_iff, List.mem_cons]
      constructor
      · rintro ⟨⟨h1, h2⟩, h3⟩
        refine ⟨h1, fun p hp => ?_⟩
        rcases hp with rfl | hp
        · exact h2
        · exact h3 p hp
      · rintro ⟨h1, h2⟩
        exact ⟨⟨h1, h2 hd (Or.inl rfl)⟩, fun p hp => h2 p (Or.inr hp)⟩

theorem zip_self_eq (x : List Nat) : ∀ p ∈ x.zip x, p.1 = p.2 := by
  induction x with
  | nil => intro p hp; simp at hp
  | cons a xs ih =>
      intro p hp
      rw [List.zip_cons_cons, List.mem_cons] at hp
      rcases hp with rfl | hp
      · rfl
      · exact ih p hp

theorem zip_pointwise_eq (x : List Nat) : ∀ (y : List Nat), x.length = y.length →
    (∀ p ∈ x.zip y, p.1 = p.2) → x = y := by
  induction x with
  | nil =>
      intro y h _
      cases y with
      | nil => rfl
      | cons b ys => simp at h
  | cons a xs ih =>
      intro y h hall
      cases y with
      | nil => simp at h
      | cons b ys =>
          have hab : a = b := hall (a, b) (by rw [List.zip_cons_cons]; simp)
          have htl : xs = ys := by
            refine ih ys (by simpa using h) (fun p hp => hall p ?_)
            rw [List.zip_cons_cons, List.mem_cons]
            exact Or.inr hp
          rw [hab, htl]

theorem ctAccumulate_eq_zero (x y : List Nat) (h : x.length = y.length) :
    ctAccumulate x y = 0 ↔ x = y := by
  unfold ctAccumulate
  rw [foldl_lor_eq_zero]
  constructor
  · rintro ⟨_, hall⟩
    exact zip_pointwise_eq x y h hall
  · rintro rfl
    exact ⟨rfl, zip_self_eq x⟩

theorem ctAccumulate_lt (x y : List Nat) (hx : ∀ b ∈ x, b < 256)
    (hy : ∀ b ∈ y, b < 256) : ctAccumulate x y < 256 := by
  unfold ctAccumulate
  have key : ∀ (l : List (Nat × Nat)) (a : Nat), a < 256 →
      (∀ p ∈ l, p.1 < 256 ∧ p.2 < 256) →
      l.foldl (fun v p => Nat.lor v (Nat.xor p.1 p.2)) a < 256 := by
    intro l
    induction l with
    | nil => intro a ha _; simpa using ha
    | cons hd tl ih =>
        intro a ha hl
        simp only [List.foldl_cons]
        apply ih
        · have h1 : Nat.xor hd.1 hd.2 < 256 :=
            Nat.xor_lt_two_pow (n := 8) (hl hd (by simp)).1 (hl hd (by simp)).2
          exact Nat.or_lt_two_pow (n := 8) ha h1
        · intro p hp; exact hl p (List.mem_cons_of_mem _ hp)
  apply key _ 0 (by omega)
  intro p hp
  exact ⟨hx p.1 (List.of_mem_zip hp).1, hy p.2 (List.of_mem_zip hp).2⟩

theorem hmacEqual_iff (x y : List Nat) (hx : ∀ b ∈ x, b < 256)
    (hy : ∀ b ∈ y, b < 256) : (hmacEqual x y = true ↔ x = y) := by
  unfold hmacEqual constantTimeCompare
  by_cases hl : x.length = y.length
  · simp only [hl, ne_eq, not_true_eq_false, if_false]
    have hacc := ctAccumulate_lt x y hx hy
    have hiff := ctAccumulate_eq_zero x y hl
    unfold constantTimeByteEq
    rw [Nat.shiftRight_eq_div_pow]
    have hxor0 : ∀ n : Nat, Nat.xor n 0 = n := fun n => Nat.xor_zero n
    by_cases hz : ctAccumulate x y = 0
    · rw [hz]
      have hval : (Nat.xor 0 0 + 4294967295) % 4294967296 / 2 ^ 31 = 1 := by decide
      rw [hval]
      simp only [beq_iff_eq]
      exact ⟨fun _ => hiff.mp hz, fun _ => by trivial⟩
    · have hsub : (Nat.xor (ctAccumulate x y) 0 + 4294967295) % 4294967296 =
          ctAccumulate x y - 1 := by
        rw [hxor0]
        omega
      rw [hsub]
      have hlt : (ctAccumulate x y - 1) / 2 ^ 31 = 0 := by
        apply Nat.div_eq_of_lt; omega
      rw [hlt]
      simp only [beq_iff_eq, Nat.zero_ne_one, false_iff]
      intro heq
      exact hz (hiff.mpr heq)
  · simp only [ne_eq, hl, not_false_eq_true, if_true]
    simp only [beq_iff_eq, Nat.zero_ne_one, false_iff]
    intro heq
    exact hl (by rw [heq])

end Acp

namespace Acp

/-! ## C3: constant-time comparison -/

/-- C3: `HMACVerifier.Verify` compares the recomputed MAC against the decoded
supplied signature using `hmac.Equal`, i.e. `subtle.ConstantTimeCompare`
(`hmacEqual` in this model).  The number of byte-loop iterations the
comparison performs (`ctCompareIterations`) is a function of the operand
lengths alone — in particular it does not depend on the position of the
first differing byte — and the comparison decides equality of the two MACs. -/
theorem verify_comparison_is_constant_time :
    (∀ x y xp yp : List Nat, x.length = y.length → xp.length = yp.length →
        x.length = xp.length →
        ctCompareIterations x y = ctCompareIterations xp yp) ∧
    (∀ x y : List Nat, (∀ b ∈ x, b < 256) → (∀ b ∈ y, b < 256) →
        (hmacEqual x y = true ↔ x = y)) := by
  constructor
  · intro x y xp yp h1 h2 h3
    unfold ctCompareIterations
    rw [if_neg (by omega : ¬ x.length ≠ y.length),
        if_neg (by omega : ¬ xp.length ≠ yp.length)]
    omega
  · exact hmacEqual_iff

/-- Witness for C3 at concrete MACs: two pairs that differ at different byte
positions take the same number of comparison iterations, and the comparison
answers equality correctly on a concrete pair. -/
theorem verify_comparison_is_constant_time_witness :
    ctCompareIterations [1, 2, 3] [9, 2, 3] = ctCompareIterations [1, 2, 3] [1, 2, 9] ∧
    (hmacEqual [1, 2, 3] [1, 2, 3] = true ↔ ([1, 2, 3] : List Nat) = [1, 2, 3]) :=
  ⟨verify_comparison_is_constant_time.1 [1, 2, 3] [9, 2, 3] [1, 2, 3] [1, 2, 9]
      (by decide) (by decide) (by decide),
   verify_comparison_is_constant_time.2 [1, 2, 3] [1, 2, 3]
      (by decide) (by decide)⟩

/-! ## C8: Retry-After semantics -/

/-- C8: the `Retry-After` header is set by `writeJSONError` exactly when the
error's retry duration is strictly positive, and then its value is the
duration in whole seconds rounded up (ceiling). -/
theorem retry_after_header_semantics :
    (∀ e : ACPError, (retryAfterHeaderValue e).isSome ↔ 0 < e.retryAfter) ∧
    (∀ e : ACPError, 0 < e.retryAfter →
        retryAfterHeaderValue e =
          some ((e.retryAfter + 999999999) / 1000000000)) := by
  have hval : ∀ d : Int, 0 < d →
      retryAfterSeconds d = (d + 999999999) / 1000000000 := by
    intro d hd
    simp only [retryAfterSeconds, secondDuration]
    rw [if_neg (by omega : ¬ d ≤ 0)]
    split_ifs <;> omega
  have hpos : ∀ d : Int, (0 < retryAfterSeconds d ↔ 0 < d) := by
    intro d
    simp only [retryAfterSeconds, secondDuration]
    split_ifs <;> omega
  constructor
  · intro e
    unfold retryAfterHeaderValue
    by_cases hc : 0 < retryAfterSeconds e.retryAfter
    · simp [hc, (hpos e.retryAfter).mp hc]
    · rw [if_neg hc]
      simp only [Option.isSome_none, Bool.false_eq_true, false_iff]
      intro hd
      exact hc ((hpos e.retryAfter).mpr hd)
  · intro e hd
    unfold retryAfterHeaderValue
    rw [if_pos ((hpos e.retryAfter).mpr hd), hval e.retryAfter hd]

/-- Witness for C8: a 3 s duration yields `Retry-After: 3`, a 2500 ms
duration rounds up to `3`, and a zero duration sets no header. -/
theorem retry_after_header_semantics_witness :
    retryAfterHeaderValue
        { etype := "x", code := "x", message := "", retryAfter := 3000000000 } = some 3 ∧
    retryAfterHeaderValue
        { etype := "x", code := "x", message := "", retryAfter := 2500000000 } = some 3 ∧
    ((retryAfterHeaderValue
        { etype := "x", code := "x", message := "", retryAfter := 0 }).isSome ↔
      (0 : Int) < 0) :=
  ⟨(retry_after_header_semantics.2 _ (by decide)).trans (by decide),
   (retry_after_header_semantics.2 _ (by decide)).trans (by decide),
   retry_after_header_semantics.1 _⟩

/-! ## C10: construction fails closed -/

/-- C10: if the resolved configuration enables required signing but has no
verifier, both `NewCheckoutHandler` and `NewDelegatedPaymentHandler` panic
instead of returning a handler; consequently every constructed handler with
enforcement on holds a verifier. -/
theorem construction_requires_verifier :
    (∀ now opts, (resolveConfig now opts).requireSignedRequests = true →
        (resolveConfig now opts).signatureVerifier.isNone = true →
        (∃ m, newCheckoutHandler now opts = .error m) ∧
        (∃ m, newDelegatedPaymentHandler now opts = .error m)) ∧
    (∀ now opts h, newCheckoutHandler now opts = .ok h →
        h.cfg.requireSignedRequests = true →
        h.cfg.signatureVerifier.isSome = true) ∧
    (∀ now opts h, newDelegatedPaymentHandler now opts = .ok h →
        h.cfg.requireSignedRequests = true →
        h.cfg.signatureVerifier.isSome = true) := by
  refine ⟨fun now opts h1 h2 => ?_, fun now opts h hok hreq => ?_, fun now opts h hok hreq => ?_⟩
  · unfold newCheckoutHandler newDelegatedPaymentHandler
    rw [if_pos (by exact ⟨h1, h2⟩), if_pos (by exact ⟨h1, h2⟩)]
    exact ⟨⟨_, rfl⟩, ⟨_, rfl⟩⟩
  · unfold newCheckoutHandler at hok
    by_cases hc : (resolveConfig now opts).requireSignedRequests ∧
        (resolveConfig now opts).signatureVerifier.isNone
    · rw [if_pos hc] at hok; cases hok
    · rw [if_neg hc] at hok
      cases hok
      show (resolveConfig now opts).signatureVerifier.isSome = true
      cases hv : (resolveConfig now opts).signatureVerifier with
      | none => exact absurd ⟨hreq, by rw [hv]; rfl⟩ hc
      | some v => rfl
  · unfold newDelegatedPaymentHandler at hok
    by_cases hc : (resolveConfig now opts).requireSignedRequests ∧
        (resolveConfig now opts).signatureVerifier.isNone
    · rw [if_pos hc] at hok; cases hok
    · rw [if_neg hc] at hok
      cases hok
      show (resolveConfig now opts).signatureVerifier.isSome = true
      cases hv : (resolveConfig now opts).signatureVerifier with
      | none => exact absurd ⟨hreq, by rw [hv]; rfl⟩ hc
      | some v => rfl

/-- Witness for C10: requiring signed requests with no verifier makes the
checkout constructor fail. -/
theorem construction_requires_verifier_witness :
    ∃ m, newCheckoutHandler 0 [.withRequireSignedRequests] = .error m :=
  (construction_requires_verifier.1 0 [.withRequireSignedRequests] rfl rfl).1

end Acp

namespace Acp

/-! ## C5: partial signing material -/

/-- C5: with a verifier configured, a request carrying exactly one of the
(trimmed) `Signature` / `Timestamp` headers is rejected with
`invalid_signature` / HTTP 400, whatever the enforcement mode, whatever the
verifier, and whatever the body — the outcome is one fixed error value for
every verifier, enforcement flag and body, so neither the verifier is
invoked nor the body read. -/
theorem signature_middleware_partial_material :
    ∀ (vf : Material → Bool) (rs : Bool) (skew now : Int) (r : HTTPRequest),
      ((trimSpace r.signatureHeader = [] ∧ trimSpace r.timestampHeader ≠ []) ∨
       (trimSpace r.signatureHeader ≠ [] ∧ trimSpace r.timestampHeader = [])) →
      (newSignatureMiddleware
          { verifier := some vf, requireSigned := rs,
            maxClockSkew := skew, now := now }).map (fun mw => mw r) =
        some (.reject (newHTTPError 400 invalidRequestType invalidSignatureCode
          "Signature and Timestamp headers must both be provided")) := by
  intro vf rs skew now r hcond
  show some _ = _
  rcases hcond with ⟨h1, h2⟩ | ⟨h1, h2⟩
  · simp [h1, h2]
  · simp [h1, h2]

/-- Witness for C5: a concrete request with only a `Signature` header is
rejected with the fixed 400 `invalid_signature` error (under a concrete
verifier, skew bound and enforcement mode). -/
theorem signature_middleware_partial_material_witness :
    (newSignatureMiddleware
        { verifier := some (fun _ => true), requireSigned := false,
          maxClockSkew := 60000000000, now := 0 }).map
        (fun mw => mw { signatureHeader := [120] }) =
      some (.reject (newHTTPError 400 invalidRequestType invalidSignatureCode
        "Signature and Timestamp headers must both be provided")) :=
  signature_middleware_partial_material (fun _ => true) false 60000000000 0
    { signatureHeader := [120] } (Or.inr ⟨by decide, by decide⟩)

/-! ## C6: authentication middleware error forwarding -/

theorem cutSpace_append (b : List Nat) :
    ∀ a : List Nat, (∀ c ∈ a, c ≠ 32) → cutSpace (a ++ 32 :: b) = some (a, b) := by
  intro a
  induction a with
  | nil => intro _; simp [cutSpace]
  | cons c cs ih =>
      intro h
      have hc : c ≠ 32 := h c (by simp)
      have ih2 := ih (fun x hx => h x (List.mem_cons_of_mem _ hx))
      rw [List.cons_append]
      show (if c = 32 then some ([], cs ++ 32 :: b)
            else (cutSpace (cs ++ 32 :: b)).map (fun p => (c :: p.1, p.2))) =
        some (c :: cs, b)
      rw [if_neg hc, ih2]
      rfl

/-- C6: for a well-formed `Bearer <token>` authorization header with a
non-empty token, the middleware calls the configured authenticator on the
token; a typed structured error it returns is written to the client exactly
as produced, while any other non-nil error yields the fixed 401
`invalid_authorization` response whatever the authenticator's internal
message was; a nil error passes the request through. -/
theorem authentication_error_forwarding :
    ∀ (authFn : List Nat → AuthResult) (r : HTTPRequest) (tok : List Nat),
      trimSpace r.authorizationHeader = bearerBytes ++ 32 :: tok →
      tok ≠ [] →
      (∀ e, authFn tok = .typedErr e →
          authenticationMiddleware (some authFn) r = .reject e) ∧
      (∀ m, authFn tok = .opaqueErr m →
          authenticationMiddleware (some authFn) r =
            .reject (newHTTPError 401 invalidRequestType invalidAuthorizationCode
              "invalid API key")) ∧
      (authFn tok = .ok → authenticationMiddleware (some authFn) r = .next) := by
  intro authFn r tok hhdr htok
  have hne : trimSpace r.authorizationHeader ≠ [] := by
    rw [hhdr]; simp [bearerBytes]
  have hcut : cutSpace (trimSpace r.authorizationHeader) = some (bearerBytes, tok) := by
    rw [hhdr]
    exact cutSpace_append tok bearerBytes (by decide)
  have hfold : equalFold bearerBytes bearerBytes = true := by decide
  have step : ∀ res, authFn tok = res →
      authenticationMiddleware (some authFn) r =
        (match res with
         | .ok => .next
         | .typedErr e => .reject e
         | .opaqueErr _ =>
             .reject (newHTTPError 401 invalidRequestType invalidAuthorizationCode
               "invalid API key")) := by
    intro res hres
    have hcut3 : cutSpace (66 :: 101 :: 97 :: 114 :: 101 :: 114 :: 32 :: tok) =
        some ([66, 101, 97, 114, 101, 114], tok) := by
      simpa [bearerBytes] using cutSpace_append tok bearerBytes (by decide)
    have hfold2 : equalFold [66, 101, 97, 114, 101, 114] [66, 101, 97, 114, 101, 114] = true := by
      decide
    unfold authenticationMiddleware
    simp only [hhdr]
    simp [hcut3, hfold2, htok, bearerBytes]
    rw [hres]
  exact ⟨fun e he => step _ he, fun m hm => step _ hm, fun h0 => step _ h0⟩

/-- Witness for C6: under a concrete authenticator returning a typed
`ServiceUnavailable` error for the concrete token `a`, the middleware
forwards that exact error. -/
theorem authentication_error_forwarding_witness :
    authenticationMiddleware
        (some (fun _ => .typedErr (newHTTPError 503 serviceUnavailableType
          serviceUnavailableType "auth service unavailable")))
        { authorizationHeader := [66, 101, 97, 114, 101, 114, 32, 97] } =
      .reject (newHTTPError 503 serviceUnavailableType serviceUnavailableType
        "auth service unavailable") :=
  (authentication_error_forwarding _ _ [97] (by decide) (by decide)).1 _ rfl

end Acp

namespace Acp

/-! ## C4: clock-skew boundary -/

/-- C4: with a verifier configured, a positive skew bound, both headers
present and a parseable timestamp, the middleware rejects with the
`stale_timestamp` 401 error exactly when `|now - ts|` strictly exceeds the
bound; the stale error carries no retry-after duration. -/
theorem signature_middleware_stale_timestamp :
    ∀ (vf : Material → Bool) (rs : Bool) (maxSkew now : Int) (r : HTTPRequest) (ts : Int),
      0 < maxSkew →
      trimSpace r.signatureHeader ≠ [] →
      trimSpace r.timestampHeader ≠ [] →
      parseTimestamp (trimSpace r.timestampHeader) = some ts →
      (((newSignatureMiddleware
          { verifier := some vf, requireSigned := rs,
            maxClockSkew := maxSkew, now := now }).map (fun mw => mw r) =
          some (.reject (staleTimestampError maxSkew))) ↔
        maxSkew < absDuration (now - ts)) ∧
      (staleTimestampError maxSkew).retryAfter = 0 ∧
      (staleTimestampError maxSkew).status = 401 ∧
      (staleTimestampError maxSkew).code = staleTimestampCode := by
  intro vf rs maxSkew now r ts hpos h1 h2 hts
  refine ⟨?_, rfl, rfl, rfl⟩
  by_cases hskew : maxSkew < absDuration (now - ts)
  · apply iff_of_true _ hskew
    show some _ = some _
    simp [h1, h2, hts, hpos, hskew]
  · apply iff_of_false _ hskew
    show ¬ some _ = some _
    simp only [Option.some.injEq]
    rw [if_neg (fun hand => h1 hand.1), if_neg (fun hor => hor.elim h1 h2), hts]
    simp only []
    rw [if_neg (fun hand => hskew hand.2)]
    intro heq
    split at heq
    · have hcode := congrArg ACPError.code (MWOutcome.reject.inj heq)
      simp only [newInvalidRequestError, newHTTPError, staleTimestampError] at hcode
      exact absurd hcode (by decide)
    · split at heq
      · exact MWOutcome.noConfusion heq
      · have hcode := congrArg ACPError.code (MWOutcome.reject.inj heq)
        simp only [newHTTPError, staleTimestampError] at hcode
        exact absurd hcode (by decide)

end Acp

namespace Acp

/-- Witness for C4, with a 60 s bound and timestamp `2025-01-01T12:00:00Z`:
a clock 61 s later yields the `stale_timestamp` rejection, a clock 59 s
later does not. -/
theorem signature_middleware_stale_timestamp_witness :
    ((newSignatureMiddleware { verifier := some (fun _ => true), requireSigned := false, maxClockSkew := 60000000000, now := 1735732800000000000 + 61000000000 }).map (fun mw => mw { signatureHeader := [120], timestampHeader := [50, 48, 50, 53, 45, 48, 49, 45, 48, 49, 84, 49, 50, 58, 48, 48, 58, 48, 48, 90] }) =
      some (.reject (staleTimestampError 60000000000))) ∧
    ¬ ((newSignatureMiddleware { verifier := some (fun _ => true), requireSigned := false, maxClockSkew := 60000000000, now := 1735732800000000000 + 59000000000 }).map (fun mw => mw { signatureHeader := [120], timestampHeader := [50, 48, 50, 53, 45, 48, 49, 45, 48, 49, 84, 49, 50, 58, 48, 48, 58, 48, 48, 90] }) =
      some (.reject (staleTimestampError 60000000000))) :=
  ⟨(signature_middleware_stale_timestamp (fun _ => true) false 60000000000
      (1735732800000000000 + 61000000000) _ 1735732800000000000
      (by decide) (by decide) (by decide) (by decide)).1.mpr (by decide),
   fun h =>
     absurd ((signature_middleware_stale_timestamp (fun _ => true) false 60000000000
        (1735732800000000000 + 59000000000) _ 1735732800000000000
        (by decide) (by decide) (by decide) (by decide)).1.mp h) (by decide)⟩

end Acp

namespace Acp

/-! ## base64url and digest lemmas (towards C1) -/

theorem b64Val_b64Char : ∀ v : Nat, v < 64 → b64Val (b64Char v) = some v := by decide

theorem b64Char_ne13 : ∀ v : Nat, v < 64 → b64Char v ≠ 13 := by decide

theorem b64Char_ne10 : ∀ v : Nat, v < 64 → b64Char v ≠ 10 := by decide

theorem b64Encode_roundtrip :
    ∀ bs : List Nat, (∀ b ∈ bs, b < 256) →
      b64DecodeQuanta (b64Encode bs) = some bs
  | [] => by intro _; rfl
  | [b0] => by
      intro h
      have hb0 : b0 < 256 := h b0 (by simp)
      have hv1 := b64Val_b64Char (b0 / 4) (by omega)
      have hv2 := b64Val_b64Char (b0 % 4 * 16) (by omega)
      simp [b64Encode, b64DecodeQuanta, hv1, hv2]
      omega
  | [b0, b1] => by
      intro h
      have hb0 : b0 < 256 := h b0 (by simp)
      have hb1 : b1 < 256 := h b1 (by simp)
      have hv1 := b64Val_b64Char (b0 / 4) (by omega)
      have hv2 := b64Val_b64Char (b0 % 4 * 16 + b1 / 16) (by omega)
      have hv3 := b64Val_b64Char (b1 % 16 * 4) (by omega)
      simp [b64Encode, b64DecodeQuanta, hv1, hv2, hv3]
      constructor
      · omega
      · omega
  | b0 :: b1 :: b2 :: rest => by
      intro h
      have hb0 : b0 < 256 := h b0 (by simp)
      have hb1 : b1 < 256 := h b1 (by simp)
      have hb2 : b2 < 256 := h b2 (by simp)
      have ih := b64Encode_roundtrip rest
        (fun b hb => h b (by simp [hb]))
      have hv1 := b64Val_b64Char (b0 / 4) (by omega)
      have hv2 := b64Val_b64Char (b0 % 4 * 16 + b1 / 16) (by omega)
      have hv3 := b64Val_b64Char (b1 % 16 * 4 + b2 / 64) (by omega)
      have hv4 := b64Val_b64Char (b2 % 64) (by omega)
      simp [b64Encode, b64DecodeQuanta, hv1, hv2, hv3, hv4, ih]
      refine ⟨by omega, by omega, by omega⟩

theorem b64Encode_mem :
    ∀ bs : List Nat, (∀ b ∈ bs, b < 256) →
      ∀ c ∈ b64Encode bs, c ≠ 13 ∧ c ≠ 10
  | [] => by intro _ c hc; simp [b64Encode] at hc
  | [b0] => by
      intro h c hc
      have hb0 : b0 < 256 := h b0 (by simp)
      simp [b64Encode] at hc
      rcases hc with rfl | rfl
      · exact ⟨b64Char_ne13 _ (by omega), b64Char_ne10 _ (by omega)⟩
      · exact ⟨b64Char_ne13 _ (by omega), b64Char_ne10 _ (by omega)⟩
  | [b0, b1] => by
      intro h c hc
      have hb0 : b0 < 256 := h b0 (by simp)
      have hb1 : b1 < 256 := h b1 (by simp)
      simp [b64Encode] at hc
      rcases hc with rfl | rfl | rfl <;>
        exact ⟨b64Char_ne13 _ (by omega), b64Char_ne10 _ (by omega)⟩
  | b0 :: b1 :: b2 :: rest => by
      intro h c hc
      have hb0 : b0 < 256 := h b0 (by simp)
      have hb1 : b1 < 256 := h b1 (by simp)
      have hb2 : b2 < 256 := h b2 (by simp)
      have ih := b64Encode_mem rest (fun b hb => h b (by simp [hb]))
      simp [b64Encode] at hc
      rcases hc with rfl | rfl | rfl | rfl | hmem
      · exact ⟨b64Char_ne13 _ (by omega), b64Char_ne10 _ (by omega)⟩
      · exact ⟨b64Char_ne13 _ (by omega), b64Char_ne10 _ (by omega)⟩
      · exact ⟨b64Char_ne13 _ (by omega), b64Char_ne10 _ (by omega)⟩
      · exact ⟨b64Char_ne13 _ (by omega), b64Char_ne10 _ (by omega)⟩
      · exact ih c hmem

theorem b64Encode_no_crlf (bs : List Nat) (h : ∀ b ∈ bs, b < 256) :
    (b64Encode bs).filter (fun c => decide (c ≠ 13) && decide (c ≠ 10)) = b64Encode bs := by
  rw [List.filter_eq_self]
  intro a ha
  have hne := b64Encode_mem bs h a ha
  simp [hne.1, hne.2]

/-- Decoding inverts encoding, for byte inputs. -/
theorem b64Decode_encode (bs : List Nat) (h : ∀ b ∈ bs, b < 256) :
    b64Decode (b64Encode bs) = some bs := by
  unfold b64Decode
  rw [b64Encode_no_crlf bs h]
  exact b64Encode_roundtrip bs h

theorem b64Val_lt (c v : Nat) (h : b64Val c = some v) : v < 64 := by
  unfold b64Val at h
  split_ifs at h <;> (cases h; omega)

theorem b64DecodeQuanta_lt :
    ∀ s bs : List Nat, b64DecodeQuanta s = some bs → ∀ b ∈ bs, b < 256
  | [], bs => by intro h b hb; cases h; simp at hb
  | [c], bs => by intro h; simp [b64DecodeQuanta] at h
  | [c1, c2], bs => by
      intro h b hb
      simp only [b64DecodeQuanta] at h
      split at h
      · rename_i v1 v2 hv1 hv2
        cases h
        have := b64Val_lt c1 v1 hv1
        have := b64Val_lt c2 v2 hv2
        simp at hb
        omega
      · cases h
  | [c1, c2, c3], bs => by
      intro h b hb
      simp only [b64DecodeQuanta] at h
      split at h
      · rename_i v1 v2 v3 hv1 hv2 hv3
        cases h
        have := b64Val_lt c1 v1 hv1
        have := b64Val_lt c2 v2 hv2
        have := b64Val_lt c3 v3 hv3
        simp at hb
        rcases hb with rfl | rfl <;> omega
      · cases h
  | c1 :: c2 :: c3 :: c4 :: rest, bs => by
      intro h b hb
      simp only [b64DecodeQuanta] at h
      split at h
      · rename_i v1 v2 v3 v4 tl hv1 hv2 hv3 hv4 htl
        cases h
        have := b64Val_lt c1 v1 hv1
        have := b64Val_lt c2 v2 hv2
        have := b64Val_lt c3 v3 hv3
        have := b64Val_lt c4 v4 hv4
        simp at hb
        rcases hb with rfl | rfl | rfl | hmem
        · omega
        · omega
        · omega
        · exact b64DecodeQuanta_lt rest tl htl b hmem
      · cases h

theorem b64Decode_lt (s bs : List Nat) (h : b64Decode s = some bs) :
    ∀ b ∈ bs, b < 256 :=
  b64DecodeQuanta_lt _ bs h

theorem shaRound_length (st : List Nat) (kw : Nat × Nat) :
    (shaRound st kw).length = st.length := by
  unfold shaRound
  split <;> rfl

theorem foldl_shaRound_length (l : List (Nat × Nat)) :
    ∀ st : List Nat, (l.foldl shaRound st).length = st.length := by
  induction l with
  | nil => intro st; rfl
  | cons hd tl ih =>
      intro st
      simp only [List.foldl_cons, ih, shaRound_length]

theorem compressBlock_length (h block : List Nat) :
    (compressBlock h block).length = h.length := by
  unfold compressBlock
  simp [List.length_zipWith, foldl_shaRound_length]

theorem foldl_compressBlock_length (bl : List (List Nat)) :
    ∀ st : List Nat, (bl.foldl compressBlock st).length = st.length := by
  induction bl with
  | nil => intro st; rfl
  | cons hd tl ih =>
      intro st
      simp only [List.foldl_cons, ih, compressBlock_length]

theorem flatten_wordBytes_length (hs : List Nat) :
    ((hs.map wordBytes).flatten).length = 4 * hs.length := by
  induction hs with
  | nil => rfl
  | cons hd tl ih =>
      simp [wordBytes, ih]
      omega

/-- A SHA-256 digest is 32 bytes. -/
theorem sha256_length (msg : List Nat) : (sha256 msg).length = 32 := by
  unfold sha256
  rw [flatten_wordBytes_length, foldl_compressBlock_length]
  rfl

/-- Every byte of a SHA-256 digest is below 256. -/
theorem sha256_lt (msg : List Nat) : ∀ b ∈ sha256 msg, b < 256 := by
  intro b hb
  unfold sha256 at hb
  rw [List.mem_flatten] at hb
  rcases hb with ⟨l, hl, hbl⟩
  rw [List.mem_map] at hl
  rcases hl with ⟨w, _, rfl⟩
  simp [wordBytes] at hbl
  rcases hbl with rfl | rfl | rfl | rfl <;> omega

theorem hmacSHA256_length (key msg : List Nat) : (hmacSHA256 key msg).length = 32 :=
  sha256_length _

theorem hmacSHA256_lt (key msg : List Nat) : ∀ b ∈ hmacSHA256 key msg, b < 256 :=
  sha256_lt _

end Acp

namespace Acp

/-! ## C1: HMAC verification round-trip -/

/-- C1: for every non-empty key, timestamp and canonical body, the signature
`base64url(HMAC-SHA256(key, RFC3339Nano(UTC(ts)) ++ "." ++ body))` is
accepted by `HMACVerifier.Verify`; and whenever the supplied signature
decodes to a MAC different from the recomputed one, verification fails. -/
theorem hmac_verify_roundtrip :
    (∀ (key : List Nat) (ts : Int) (body meth pth q : List Nat)
        (hdrs : List (List Nat × List Nat)), key ≠ [] →
        hmacVerify key
          { signature := b64Encode (hmacSHA256 key (buildSigningPayload ts body)),
            timestamp := ts, canonicalBody := body, method := meth, path := pth,
            rawQuery := q, headers := hdrs } = .ok ()) ∧
    (∀ (key : List Nat) (material : Material) (d : List Nat),
        b64Decode material.signature = some d →
        d ≠ hmacSHA256 key
          (buildSigningPayload material.timestamp material.canonicalBody) →
        hmacVerify key material ≠ .ok ()) := by
  constructor
  · intro key ts body meth pth q hdrs hkey
    unfold hmacVerify
    rw [if_neg (by simpa using hkey)]
    simp only []
    rw [b64Decode_encode _ (hmacSHA256_lt key _)]
    have heq : hmacEqual (hmacSHA256 key (buildSigningPayload ts body))
        (hmacSHA256 key (buildSigningPayload ts body)) = true :=
      (hmacEqual_iff _ _ (hmacSHA256_lt key _) (hmacSHA256_lt key _)).mpr rfl
    simp [heq]
  · intro key material d hdec hne
    unfold hmacVerify
    by_cases hkey : key.length = 0
    · rw [if_pos hkey]
      intro h
      cases h
    · rw [if_neg hkey]
      simp only []
      rw [hdec]
      have hne2 : hmacEqual d (hmacSHA256 key
          (buildSigningPayload material.timestamp material.canonicalBody)) ≠ true := by
        intro htrue
        exact hne ((hmacEqual_iff _ _ (b64Decode_lt _ _ hdec)
          (hmacSHA256_lt key _)).mp htrue)
      simp only [Bool.not_eq_true] at hne2
      simp only [hne2, Bool.false_eq_true, if_false]
      intro h
      cases h

/-- Witness for C1 at a concrete key, instant and body: the freshly computed
signature verifies, and a decodable signature whose MAC has the wrong
length (33 zero bytes) is refused. -/
theorem hmac_verify_roundtrip_witness :
    (hmacVerify [107]
      { signature := b64Encode (hmacSHA256 [107] (buildSigningPayload 0 [110])),
        timestamp := 0, canonicalBody := [110], method := [], path := [],
        rawQuery := [], headers := [] } = .ok ()) ∧
    (hmacVerify [107]
      { signature := b64Encode (List.replicate 33 0),
        timestamp := 0, canonicalBody := [110], method := [], path := [],
        rawQuery := [], headers := [] } ≠ .ok ()) :=
  ⟨hmac_verify_roundtrip.1 [107] 0 [110] [] [] [] [] (by decide),
   hmac_verify_roundtrip.2 [107]
      { signature := b64Encode (List.replicate 33 0),
        timestamp := 0, canonicalBody := [110], method := [], path := [],
        rawQuery := [], headers := [] }
      (List.replicate 33 0)
      (b64Decode_encode (List.replicate 33 0) (by decide))
      (fun he => by
        have hlen := congrArg List.length he
        rw [hmacSHA256_length] at hlen
        simp at hlen)⟩

end Acp

namespace Acp

/-! ## C9: webhook delivery -/

theorem headerGet_set_same (hs : List (List Nat × List Nat)) (k v : List Nat) :
    headerGet (headerSet hs k v) k = some v := by
  simp [headerGet, headerSet, List.find?]

/-- C9: for every configured webhook and event, `SendWebhook` serializes the
envelope once; the request body is exactly those bytes; the configured
header holds exactly `base64url(HMAC-SHA256(secret, body bytes))` — the
literal serialized bytes, with no timestamp prefix and no
canonicalization; exactly one client call is made (no internal retry); and
the call fails exactly on a transport error or a non-2xx status. -/
theorem webhook_send_signature :
    ∀ (cfg : WebhookCfg) (ev : EventData) (client : ClientBehavior) (calls : Nat),
      ((sendWebhook (some cfg) ev client calls).2.1.map (fun r => r.reqBody) =
        some (marshalWebhookEvent ev)) ∧
      ((sendWebhook (some cfg) ev client calls).2.1.map
          (fun r => headerGet r.headers cfg.header) =
        some (some (b64Encode
          (hmacSHA256 cfg.secret (marshalWebhookEvent ev))))) ∧
      ((sendWebhook (some cfg) ev client calls).2.2 = calls + 1) ∧
      (∀ resp, client calls = .ok resp →
        (sendWebhook (some cfg) ev client calls).1 =
          (if 200 ≤ resp.status ∧ resp.status < 300 then .ok ()
           else .error (.non2xx resp.status (resp.respBody.take 4096)))) ∧
      (∀ u, client calls = .error u →
        (sendWebhook (some cfg) ev client calls).1 = .error .transport) := by
  intro cfg ev client calls
  refine ⟨?_, ?_, ?_, ?_, ?_⟩
  · cases hc : client calls with
    | error u => simp [sendWebhook, hc]
    | ok resp =>
        by_cases hs : 200 ≤ resp.status ∧ resp.status < 300 <;>
          simp [sendWebhook, hc, hs]
  · cases hc : client calls with
    | error u => simp [sendWebhook, hc, headerGet_set_same, signWebhookPayload]
    | ok resp =>
        by_cases hs : 200 ≤ resp.status ∧ resp.status < 300 <;>
          simp [sendWebhook, hc, hs, headerGet_set_same, signWebhookPayload]
  · cases hc : client calls with
    | error u => simp [sendWebhook, hc]
    | ok resp =>
        by_cases hs : 200 ≤ resp.status ∧ resp.status < 300 <;>
          simp [sendWebhook, hc, hs]
  · intro resp hc
    by_cases hs : 200 ≤ resp.status ∧ resp.status < 300 <;>
      simp [sendWebhook, hc, hs]
  · intro u hc
    simp [sendWebhook, hc]

/-- Witness for C9 at a concrete configuration, event and client: the one
response has status 500, so the call errors after exactly one delivery. -/
theorem webhook_send_signature_witness :
    (sendWebhook (some { endpoint := [101], header := [104], secret := [115] })
        (.orderCreate { dataType := [111], checkoutSessionID := [99], permalinkURL := [117], status := [115], refunds := [] })
        (fun _ => .ok { status := 500, respBody := [] }) 0).1 =
      (if (200 ≤ 500 ∧ 500 < 300 : Prop) then Except.ok ()
       else .error (.non2xx 500 (([] : List Nat).take 4096))) :=
  (webhook_send_signature { endpoint := [101], header := [104], secret := [115] }
      (.orderCreate { dataType := [111], checkoutSessionID := [99], permalinkURL := [117], status := [115], refunds := [] })
      (fun _ => .ok { status := 500, respBody := [] }) 0).2.2.2.1
    { status := 500, respBody := [] } rfl

end Acp

namespace Acp

/-! ## Key-order lemmas (towards C2) -/

theorem lexCmp_self : ∀ a : List Nat, lexCmp a a = .eq := by
  intro a
  induction a with
  | nil => rfl
  | cons c cs ih => simp [lexCmp, ih]

theorem lexCmp_eq_iff : ∀ a b : List Nat, lexCmp a b = .eq ↔ a = b := by
  intro a
  induction a with
  | nil =>
      intro b
      cases b with
      | nil => simp [lexCmp]
      | cons d ds => simp [lexCmp]
  | cons c cs ih =>
      intro b
      cases b with
      | nil => simp [lexCmp]
      | cons d ds =>
          by_cases h1 : c < d
          · simp [lexCmp, h1]
            omega
          · by_cases h2 : d < c
            · simp [lexCmp, h1, h2]
              omega
            · have : c = d := by omega
              subst this
              simp [lexCmp, h1, h2, ih ds]

theorem lexCmp_lt_gt : ∀ a b : List Nat, lexCmp a b = .lt ↔ lexCmp b a = .gt := by
  intro a
  induction a with
  | nil =>
      intro b
      cases b with
      | nil => simp [lexCmp]
      | cons d ds => simp [lexCmp]
  | cons c cs ih =>
      intro b
      cases b with
      | nil => simp [lexCmp]
      | cons d ds =>
          by_cases h1 : c < d
          · simp only [lexCmp, if_pos h1, if_neg (show ¬ d < c by omega)]
          · by_cases h2 : d < c
            · simp only [lexCmp, if_neg h1, if_pos h2, if_neg (show ¬ c < d by omega)]
              simp
            · simp only [lexCmp, if_neg h1, if_neg h2]
              exact ih ds

theorem lexCmp_trans_lt :
    ∀ a b c : List Nat, lexCmp a b = .lt → lexCmp b c = .lt → lexCmp a c = .lt := by
  intro a
  induction a with
  | nil =>
      intro b c hab hbc
      cases c with
      | nil =>
          cases b with
          | nil => exact hab
          | cons e es => simp [lexCmp] at hbc
      | cons f fs => simp [lexCmp]
  | cons x xs ih =>
      intro b c hab hbc
      cases b with
      | nil => simp [lexCmp] at hab
      | cons y ys =>
          cases c with
          | nil => simp [lexCmp] at hbc
          | cons z zs =>
              simp only [lexCmp] at hab hbc ⊢
              by_cases hxy : x < y
              · by_cases hyz : y < z
                · simp [(by omega : x < z)]
                · by_cases hzy : z < y
                  · simp [hyz, hzy] at hbc
                  · have : y = z := by omega
                    subst this
                    simp [hxy]
              · by_cases hyx : y < x
                · simp [hxy, hyx] at hab
                · have hxy2 : x = y := by omega
                  subst hxy2
                  by_cases hxz : x < z
                  · simp [hxz]
                  · by_cases hzx : z < x
                    · simp [hxz, hzx] at hbc
                    · have : x = z := by omega
                      subst this
                      simp [hxz] at hab hbc ⊢
                      exact ih ys zs hab hbc

/-- Inserting a key larger than everything in a sorted prefix appends. -/
theorem insertField_append (k : List Nat) (v : JVal) :
    ∀ acc : List (List Nat × JVal), (∀ p ∈ acc, lexCmp p.1 k = .lt) →
      insertField k v acc = acc ++ [(k, v)] := by
  intro acc
  induction acc with
  | nil => intro _; rfl
  | cons hd tl ih =>
      intro h
      have hhd : lexCmp hd.1 k = .lt := h hd (by simp)
      have : lexCmp k hd.1 = .gt := (lexCmp_lt_gt hd.1 k).mp hhd
      obtain ⟨k2, v2⟩ := hd
      simp only [insertField, this]
      rw [ih (fun p hp => h p (by simp [hp]))]
      rfl

/-- Pairwise strict key order, as a proposition. -/
theorem fieldsSortedB_iff_pairwise :
    ∀ fs : List (List Nat × JVal),
      fieldsSortedB fs = true ↔ List.Pairwise (fun p q => lexCmp p.1 q.1 = .lt) fs := by
  intro fs
  induction fs with
  | nil => simp [fieldsSortedB]
  | cons hd tl ih =>
      obtain ⟨k, v⟩ := hd
      simp [fieldsSortedB, ih, List.pairwise_cons, List.all_eq_true, beq_iff_eq]
      try tauto

/-- Folding inserts of an already-sorted suffix onto a sorted, smaller
prefix concatenates. -/
theorem insFold_sorted :
    ∀ (fs acc : List (List Nat × JVal)),
      List.Pairwise (fun p q => lexCmp p.1 q.1 = .lt) (acc ++ fs) →
      insFold acc fs = acc ++ fs := by
  intro fs
  induction fs with
  | nil => intro acc _; simp [insFold]
  | cons hd tl ih =>
      intro acc hsort
      obtain ⟨k, v⟩ := hd
      have hacc : ∀ p ∈ acc, lexCmp p.1 k = .lt := by
        intro p hp
        have := (List.pairwise_append.mp hsort).2.2 p hp (k, v) (by simp)
        exact this
      show insFold (insertField k v acc) tl = acc ++ (k, v) :: tl
      rw [insertField_append k v acc hacc]
      have : (acc ++ [(k, v)]) ++ tl = acc ++ (k, v) :: tl := by simp
      rw [← this]
      apply ih
      rw [this]
      exact hsort

end Acp

namespace Acp

/-! ## Number normal-form lemmas (towards C2) -/

theorem strip10_spec : ∀ m : Nat, m ≠ 0 →
    (strip10 m).1 % 10 ≠ 0 ∧ m = (strip10 m).1 * 10 ^ (strip10 m).2 ∧
      (strip10 m).1 ≠ 0 := by
  intro m
  induction m using Nat.strong_induction_on with
  | _ m ih =>
      intro hm
      by_cases h : m % 10 = 0
      · rw [strip10]
        rw [dif_pos ⟨hm, h⟩]
        have hlt : m / 10 < m := Nat.div_lt_self (Nat.pos_of_ne_zero hm) (by omega)
        have hd : m / 10 ≠ 0 := by omega
        obtain ⟨h1, h2, h3⟩ := ih (m / 10) hlt hd
        refine ⟨h1, ?_, h3⟩
        show m = (strip10 (m / 10)).1 * 10 ^ ((strip10 (m / 10)).2 + 1)
        rw [pow_succ, ← Nat.mul_assoc, ← h2]
        omega
      · rw [strip10, dif_neg (by tauto)]
        exact ⟨h, by simp, hm⟩

theorem strip10_exact (c : Nat) (hc0 : c ≠ 0) (hc : c % 10 ≠ 0) :
    ∀ k : Nat, strip10 (c * 10 ^ k) = (c, k) := by
  intro k
  induction k with
  | zero =>
      rw [strip10, dif_neg (by simpa using fun _ => hc)]
      simp
  | succ k ih =>
      have hm : c * 10 ^ (k + 1) ≠ 0 := by positivity
      have hmod : c * 10 ^ (k + 1) % 10 = 0 := by
        have : c * 10 ^ (k + 1) = c * 10 ^ k * 10 := by ring
        omega
      rw [strip10, dif_pos ⟨hm, hmod⟩]
      have hdiv : c * 10 ^ (k + 1) / 10 = c * 10 ^ k := by
        have : c * 10 ^ (k + 1) = c * 10 ^ k * 10 := by ring
        omega
      rw [hdiv, ih]

theorem foldr_ofDigits (L : List Nat) :
    (L.map (fun d => d + 48)).foldr (fun x y => y * 10 + (x - 48)) 0 =
      Nat.ofDigits 10 L := by
  induction L with
  | nil => rfl
  | cons d t ih =>
      simp only [List.map_cons, List.foldr_cons, ih, Nat.ofDigits_cons]
      omega

theorem digitsToNat_natDigits (n : Nat) : digitsToNat (natDigits n) = n := by
  unfold digitsToNat natDigits
  rw [List.map_reverse, List.foldl_reverse, foldr_ofDigits, Nat.ofDigits_digits]

theorem natDigits_bounds (n : Nat) : ∀ c ∈ natDigits n, 48 ≤ c ∧ c ≤ 57 := by
  intro c hc
  unfold natDigits at hc
  rw [List.mem_map] at hc
  rcases hc with ⟨d, hd, rfl⟩
  rw [List.mem_reverse] at hd
  have := Nat.digits_lt_base (by omega) hd
  omega

theorem natDigits_isDigit (n : Nat) : ∀ c ∈ natDigits n, isDigitByte c = true := by
  intro c hc
  have := natDigits_bounds n c hc
  simp [isDigitByte]
  omega

theorem natDigits_head (n : Nat) (h : n ≠ 0) :
    ∃ h1 t, natDigits n = h1 :: t ∧ 49 ≤ h1 ∧ h1 ≤ 57 ∧
      (∀ c ∈ t, 48 ≤ c ∧ c ≤ 57) := by
  have hne : Nat.digits 10 n ≠ [] := Nat.digits_ne_nil_iff_ne_zero.mpr h
  cases hrev : (Nat.digits 10 n).reverse with
  | nil =>
      exfalso
      apply hne
      have := congrArg List.reverse hrev
      simpa using this
  | cons x xs =>
      refine ⟨x + 48, xs.map (fun d => d + 48), ?_, ?_, ?_, ?_⟩
      · unfold natDigits
        rw [hrev]
        rfl
      · have hx0 : x ≠ 0 := by
          have hgl := Nat.getLast_digit_ne_zero 10 h
          have hsome : (Nat.digits 10 n).getLast? = some x := by
            rw [← List.head?_reverse, hrev]
            rfl
          rw [List.getLast?_eq_getLast _ hne] at hsome
          cases hsome
          exact hgl
        omega
      · have hx10 : x < 10 := by
          apply Nat.digits_lt_base (by omega)
          rw [← List.mem_reverse, hrev]
          simp
        omega
      · intro c hc
        rw [List.mem_map] at hc
        rcases hc with ⟨d, hd, rfl⟩
        have hd10 : d < 10 := by
          apply Nat.digits_lt_base (by omega)
          rw [← List.mem_reverse, hrev]
          simp [hd]
        omega

theorem natDigits_ne_nil (n : Nat) (h : n ≠ 0) : natDigits n ≠ [] := by
  obtain ⟨h1, t, heq, _⟩ := natDigits_head n h
  rw [heq]
  simp

end Acp

namespace Acp

/-! ## Number literal round-trip (towards C2) -/

theorem sepOk_headNonDigit (s : List Nat) (h : sepOk s) :
    ∀ c, s.head? = some c → isDigitByte c = false := by
  cases s with
  | nil => intro c hc; simp at hc
  | cons a t =>
      intro c hc
      simp only [List.head?_cons, Option.some.injEq] at hc
      subst hc
      exact h.1

theorem takeWhile_digits_append (rest : List Nat)
    (hrest : ∀ c, rest.head? = some c → isDigitByte c = false) :
    ∀ ds : List Nat, (∀ c ∈ ds, isDigitByte c = true) →
      (ds ++ rest).takeWhile isDigitByte = ds ∧
        (ds ++ rest).dropWhile isDigitByte = rest := by
  intro ds
  induction ds with
  | nil =>
      intro _
      constructor
      · cases rest with
        | nil => rfl
        | cons c t =>
            have hc := hrest c rfl
            simp [List.takeWhile_cons, hc]
      · cases rest with
        | nil => rfl
        | cons c t =>
            have hc := hrest c rfl
            simp [List.dropWhile_cons, hc]
  | cons d t ih =>
      intro h
      have hd : isDigitByte d = true := h d (by simp)
      obtain ⟨ht1, ht2⟩ := ih (fun c hc => h c (by simp [hc]))
      constructor
      · simp [List.takeWhile_cons, hd, ht1]
      · simp [List.dropWhile_cons, hd, ht2]

theorem parseFracDigits_sep (s : List Nat) (hsep : sepOk s) :
    parseFracDigits s = some ([], s) := by
  cases s with
  | nil => rfl
  | cons c t =>
      obtain ⟨-, hc, -, -⟩ := hsep
      simp [parseFracDigits, hc]

theorem parseExpPart_sep (s : List Nat) (hsep : sepOk s) :
    parseExpPart s = some (0, s) := by
  cases s with
  | nil => rfl
  | cons c t =>
      obtain ⟨-, -, hc1, hc2⟩ := hsep
      simp [parseExpPart, hc1, hc2]

theorem parseNumber_serialize (neg : Bool) (c : Nat) (e : Int) (rest : List Nat)
    (hn : normalNumB neg c e = true) (hsep : sepOk rest) :
    parseNumber (serializeNumber neg c e ++ rest) = some (.jnum neg c e, rest) := by
  by_cases hc : c = 0
  · subst hc
    cases neg with
    | true => simp [normalNumB] at hn
    | false =>
        have he : e = 0 := by simpa [normalNumB] using hn
        subst he
        have hser : serializeNumber false 0 0 = [48] := by simp [serializeNumber]
        rw [hser]
        unfold parseNumber
        have hsplit : splitSign ([48] ++ rest) = (false, 48 :: rest) := by
          simp [splitSign]
        rw [hsplit]
        simp only []
        have hip : parseIntPart (48 :: rest) = some ([48], rest) := by
          simp [parseIntPart]
        rw [hip]
        simp only []
        rw [parseFracDigits_sep rest hsep]
        simp only []
        rw [parseExpPart_sep rest hsep]
        simp [mkNum, digitsToNat]
  · have hc10 : c % 10 ≠ 0 := by
      simp only [normalNumB, if_neg hc, decide_eq_true_eq] at hn
      exact hn
    by_cases he : 0 ≤ e
    · have hn0 : c * 10 ^ e.toNat ≠ 0 := by positivity
      obtain ⟨h1, t, hmant, hh1a, hh1b, ht⟩ := natDigits_head _ hn0
      have htk := takeWhile_digits_append rest (sepOk_headNonDigit rest hsep) t
        (fun x hx => by simp [isDigitByte]; have := ht x hx; omega)
      have hint : parseIntPart (h1 :: (t ++ rest)) = some (h1 :: t, rest) := by
        simp only [parseIntPart, if_neg (by omega : ¬ h1 = 48),
          if_pos (by omega : 49 ≤ h1 ∧ h1 ≤ 57)]
        rw [htk.1, htk.2]
      have hdig : digitsToNat ((h1 :: t) ++ []) = c * 10 ^ e.toNat := by
        rw [List.append_nil, ← hmant, digitsToNat_natDigits]
      have hfinal : mkNum neg (c * 10 ^ e.toNat) ((0 : Int) - 0) = JVal.jnum neg c e := by
        simp only [mkNum, if_neg hn0]
        rw [strip10_exact c hc hc10 e.toNat]
        simp [Int.toNat_of_nonneg he]
      cases neg with
      | false =>
          have hser : serializeNumber false c e = natDigits (c * 10 ^ e.toNat) := by
            simp [serializeNumber, hc, he]
          rw [hser, hmant]
          unfold parseNumber
          have hsplit : splitSign ((h1 :: t) ++ rest) = (false, h1 :: (t ++ rest)) := by
            simp [splitSign]
            omega
          rw [hsplit]
          simp only []
          rw [hint]
          simp only []
          rw [parseFracDigits_sep rest hsep]
          simp only []
          rw [parseExpPart_sep rest hsep]
          simp only []
          rw [hdig]
          simp only [List.length_nil, Nat.cast_zero]
          rw [hfinal]
      | true =>
          have hser : serializeNumber true c e = 45 :: natDigits (c * 10 ^ e.toNat) := by
            simp [serializeNumber, hc, he]
          rw [hser, hmant]
          unfold parseNumber
          have hsplit : splitSign ((45 :: (h1 :: t)) ++ rest) = (true, (h1 :: t) ++ rest) := by
            simp [splitSign]
          rw [hsplit]
          simp only []
          rw [List.cons_append, hint]
          simp only []
          rw [parseFracDigits_sep rest hsep]
          simp only []
          rw [parseExpPart_sep rest hsep]
          simp only []
          rw [hdig]
          simp only [List.length_nil, Nat.cast_zero]
          rw [hfinal]
    · have hk0 : (-e).toNat ≠ 0 := by omega
      obtain ⟨h1, t, hmant, hh1a, hh1b, ht⟩ := natDigits_head c hc
      have hexphead : ∀ c, (69 :: 45 :: natDigits (-e).toNat ++ rest).head? = some c →
          isDigitByte c = false := by
        intro d hd
        have h69 : some (69 : Nat) = some d := hd
        have hd69 : d = 69 := (Option.some.inj h69).symm
        subst hd69
        rfl
      have htk := takeWhile_digits_append (69 :: 45 :: natDigits (-e).toNat ++ rest)
        hexphead t (fun x hx => by simp [isDigitByte]; have := ht x hx; omega)
      have hint : parseIntPart (h1 :: (t ++ (69 :: 45 :: natDigits (-e).toNat ++ rest))) =
          some (h1 :: t, 69 :: 45 :: natDigits (-e).toNat ++ rest) := by
        simp only [parseIntPart, if_neg (by omega : ¬ h1 = 48),
          if_pos (by omega : 49 ≤ h1 ∧ h1 ≤ 57)]
        rw [htk.1, htk.2]
      have htk2 := takeWhile_digits_append rest (sepOk_headNonDigit rest hsep)
        (natDigits (-e).toNat) (natDigits_isDigit _)
      have hexp : parseExpPart (69 :: 45 :: natDigits (-e).toNat ++ rest) =
          some (-((((-e).toNat : Nat) : Int)), rest) := by
        simp [parseExpPart, htk2.1, htk2.2, natDigits_ne_nil _ hk0,
          digitsToNat_natDigits]
      have hfrac : parseFracDigits (69 :: 45 :: natDigits (-e).toNat ++ rest) =
          some ([], 69 :: 45 :: natDigits (-e).toNat ++ rest) := by
        simp [parseFracDigits]
      have hdig : digitsToNat ((h1 :: t) ++ []) = c := by
        rw [List.append_nil, ← hmant, digitsToNat_natDigits]
      have hfinal : mkNum neg c (-((((-e).toNat : Nat) : Int)) - 0) = JVal.jnum neg c e := by
        simp only [mkNum, if_neg hc]
        have hs0 : strip10 c = (c, 0) := by
          have := strip10_exact c hc hc10 0
          simpa using this
        rw [hs0]
        have harith : (-((((-e).toNat : Nat) : Int)) - 0) + ((0 : Nat) : Int) = e := by
          rw [Int.toNat_of_nonneg (by omega : (0 : Int) ≤ -e)]
          omega
        rw [harith]
      cases neg with
      | false =>
          have hser : serializeNumber false c e =
              natDigits c ++ (69 :: 45 :: natDigits (-e).toNat) := by
            simp [serializeNumber, hc, he]
          rw [hser, hmant]
          unfold parseNumber
          have hsplit : splitSign (((h1 :: t) ++ (69 :: 45 :: natDigits (-e).toNat)) ++ rest) =
              (false, ((h1 :: t) ++ (69 :: 45 :: natDigits (-e).toNat)) ++ rest) := by
            simp [splitSign]
            omega
          rw [hsplit]
          simp only []
          have hassoc : ((h1 :: t) ++ (69 :: 45 :: natDigits (-e).toNat)) ++ rest =
              h1 :: (t ++ (69 :: 45 :: natDigits (-e).toNat ++ rest)) := by
            simp
          rw [hassoc, hint]
          simp only []
          rw [hfrac]
          simp only []
          rw [hexp]
          simp only []
          rw [hdig]
          simp only [List.length_nil, Nat.cast_zero]
          rw [hfinal]
      | true =>
          have hser : serializeNumber true c e =
              45 :: (natDigits c ++ (69 :: 45 :: natDigits (-e).toNat)) := by
            simp [serializeNumber, hc, he]
          rw [hser, hmant]
          unfold parseNumber
          have hsplit : splitSign ((45 :: ((h1 :: t) ++ (69 :: 45 :: natDigits (-e).toNat))) ++ rest) =
              (true, ((h1 :: t) ++ (69 :: 45 :: natDigits (-e).toNat)) ++ rest) := by
            simp [splitSign]
          rw [hsplit]
          simp only []
          have hassoc : ((h1 :: t) ++ (69 :: 45 :: natDigits (-e).toNat)) ++ rest =
              h1 :: (t ++ (69 :: 45 :: natDigits (-e).toNat ++ rest)) := by
            simp
          rw [hassoc, hint]
          simp only []
          rw [hfrac]
          simp only []
          rw [hexp]
          simp only []
          rw [hdig]
          simp only [List.length_nil, Nat.cast_zero]
          rw [hfinal]

end Acp

namespace Acp

/-! ## String body round-trip (towards C2) -/

theorem hex4_hexDigitChar : ∀ c : Nat, c < 32 →
    hex4 48 48 (hexDigitChar (c / 16)) (hexDigitChar (c % 16)) = some c := by
  decide

theorem canonEscapeChar_length_pos : ∀ c : Nat, 1 ≤ (canonEscapeChar c).length := by
  intro c
  unfold canonEscapeChar
  repeat' split
  all_goals simp

theorem serializeStringBody_length (s : List Nat) :
    s.length ≤ (serializeStringBody s).length := by
  induction s with
  | nil => simp [serializeStringBody]
  | cons c cs ih =>
      have := canonEscapeChar_length_pos c
      simp only [serializeStringBody, List.map_cons, List.flatten_cons,
        List.length_append, List.length_cons]
      simp only [serializeStringBody] at ih
      omega

theorem parseStrAux_serialize : ∀ s : List Nat, ∀ f rest, s.length + 1 ≤ f →
    parseStrAux f (serializeStringBody s ++ 34 :: rest) = some (s, rest) := by
  intro s
  induction s with
  | nil =>
      intro f rest hf
      obtain ⟨f', rfl⟩ : ∃ f', f = f' + 1 := ⟨f - 1, by omega⟩
      rfl
  | cons c cs ih =>
      intro f rest hf
      obtain ⟨f', rfl⟩ : ∃ f', f = f' + 1 := ⟨f - 1, by omega⟩
      have hf' : cs.length + 1 ≤ f' := by
        simp only [List.length_cons] at hf
        omega
      have hih := ih f' rest hf'
      show parseStrAux (f' + 1)
        ((canonEscapeChar c ++ serializeStringBody cs) ++ 34 :: rest) = _
      by_cases h34 : c = 34
      · subst h34
        show (parseStrAux f' (serializeStringBody cs ++ 34 :: rest)).map
          (fun p => ((34 : Nat) :: p.1, p.2)) = some (34 :: cs, rest)
        rw [hih]; rfl
      · by_cases h92 : c = 92
        · subst h92
          show (parseStrAux f' (serializeStringBody cs ++ 34 :: rest)).map
            (fun p => ((92 : Nat) :: p.1, p.2)) = some (92 :: cs, rest)
          rw [hih]; rfl
        · by_cases h8 : c = 8
          · subst h8
            show (parseStrAux f' (serializeStringBody cs ++ 34 :: rest)).map
              (fun p => ((8 : Nat) :: p.1, p.2)) = some (8 :: cs, rest)
            rw [hih]; rfl
          · by_cases h9 : c = 9
            · subst h9
              show (parseStrAux f' (serializeStringBody cs ++ 34 :: rest)).map
                (fun p => ((9 : Nat) :: p.1, p.2)) = some (9 :: cs, rest)
              rw [hih]; rfl
            · by_cases h10 : c = 10
              · subst h10
                show (parseStrAux f' (serializeStringBody cs ++ 34 :: rest)).map
                  (fun p => ((10 : Nat) :: p.1, p.2)) = some (10 :: cs, rest)
                rw [hih]; rfl
              · by_cases h12 : c = 12
                · subst h12
                  show (parseStrAux f' (serializeStringBody cs ++ 34 :: rest)).map
                    (fun p => ((12 : Nat) :: p.1, p.2)) = some (12 :: cs, rest)
                  rw [hih]; rfl
                · by_cases h13 : c = 13
                  · subst h13
                    show (parseStrAux f' (serializeStringBody cs ++ 34 :: rest)).map
                      (fun p => ((13 : Nat) :: p.1, p.2)) = some (13 :: cs, rest)
                    rw [hih]; rfl
                  · by_cases hctl : c < 32
                    · have hesc : canonEscapeChar c =
                          [92, 117, 48, 48, hexDigitChar (c / 16),
                            hexDigitChar (c % 16)] := by
                        unfold canonEscapeChar
                        rw [if_neg h34, if_neg h92, if_neg h8, if_neg h9,
                          if_neg h10, if_neg h12, if_neg h13, if_pos hctl]
                      rw [hesc]
                      show (match hex4 48 48 (hexDigitChar (c / 16))
                          (hexDigitChar (c % 16)) with
                        | none => none
                        | some cp =>
                            if 55296 ≤ cp ∧ cp < 56320 then
                              match serializeStringBody cs ++ 34 :: rest with
                              | 92 :: 117 :: a2 :: b2 :: c2 :: d2 :: r3 =>
                                  match hex4 a2 b2 c2 d2 with
                                  | some cp2 =>
                                      if 56320 ≤ cp2 ∧ cp2 < 57344 then
                                        (parseStrAux f' r3).map
                                          (fun p =>
                                            ((65536 + (cp - 55296) * 1024 +
                                              (cp2 - 56320)) :: p.1, p.2))
                                      else (parseStrAux f'
                                        (serializeStringBody cs ++ 34 :: rest)).map
                                        (fun p => (65533 :: p.1, p.2))
                                  | none => (parseStrAux f'
                                      (serializeStringBody cs ++ 34 :: rest)).map
                                      (fun p => (65533 :: p.1, p.2))
                              | _ => (parseStrAux f'
                                  (serializeStringBody cs ++ 34 :: rest)).map
                                  (fun p => (65533 :: p.1, p.2))
                            else if 56320 ≤ cp ∧ cp < 57344 then
                              (parseStrAux f'
                                (serializeStringBody cs ++ 34 :: rest)).map
                                (fun p => (65533 :: p.1, p.2))
                            else
                              (parseStrAux f'
                                (serializeStringBody cs ++ 34 :: rest)).map
                                (fun p => (cp :: p.1, p.2))) = some (c :: cs, rest)
                      rw [hex4_hexDigitChar c hctl]
                      simp only []
                      rw [if_neg (by omega : ¬ (55296 ≤ c ∧ c < 56320)),
                        if_neg (by omega : ¬ (56320 ≤ c ∧ c < 57344)), hih]
                      rfl
                    · have hesc : canonEscapeChar c = [c] := by
                        unfold canonEscapeChar
                        rw [if_neg h34, if_neg h92, if_neg h8, if_neg h9,
                          if_neg h10, if_neg h12, if_neg h13, if_neg hctl]
                      rw [hesc]
                      show (if c = 34 then some ([], serializeStringBody cs ++ 34 :: rest)
                        else if c = 92 then
                          match serializeStringBody cs ++ 34 :: rest with
                          | [] => none
                          | e :: r =>
                              if e = 34 ∨ e = 92 ∨ e = 47 then
                                (parseStrAux f' r).map (fun p => (e :: p.1, p.2))
                              else if e = 98 then
                                (parseStrAux f' r).map (fun p => (8 :: p.1, p.2))
                              else if e = 102 then
                                (parseStrAux f' r).map (fun p => (12 :: p.1, p.2))
                              else if e = 110 then
                                (parseStrAux f' r).map (fun p => (10 :: p.1, p.2))
                              else if e = 114 then
                                (parseStrAux f' r).map (fun p => (13 :: p.1, p.2))
                              else if e = 116 then
                                (parseStrAux f' r).map (fun p => (9 :: p.1, p.2))
                              else if e = 117 then
                                match r with
                                | a :: b :: c1 :: d :: r2 =>
                                    match hex4 a b c1 d with
                                    | none => none
                                    | some cp =>
                                        if 55296 ≤ cp ∧ cp < 56320 then
                                          match r2 with
                                          | 92 :: 117 :: a2 :: b2 :: c2 :: d2 :: r3 =>
                                              match hex4 a2 b2 c2 d2 with
                                              | some cp2 =>
                                                  if 56320 ≤ cp2 ∧ cp2 < 57344 then
                                                    (parseStrAux f' r3).map
                                                      (fun p =>
                                                        ((65536 + (cp - 55296) * 1024 +
                                                          (cp2 - 56320)) :: p.1, p.2))
                                                  else (parseStrAux f' r2).map
                                                    (fun p => (65533 :: p.1, p.2))
                                              | none => (parseStrAux f' r2).map
                                                  (fun p => (65533 :: p.1, p.2))
                                          | _ => (parseStrAux f' r2).map
                                              (fun p => (65533 :: p.1, p.2))
                                        else if 56320 ≤ cp ∧ cp < 57344 then
                                          (parseStrAux f' r2).map
                                            (fun p => (65533 :: p.1, p.2))
                                        else (parseStrAux f' r2).map
                                          (fun p => (cp :: p.1, p.2))
                                | _ => none
                              else none
                        else if c < 32 then none
                        else (parseStrAux f' (serializeStringBody cs ++ 34 :: rest)).map
                          (fun p => (c :: p.1, p.2))) = some (c :: cs, rest)
                      rw [if_neg h34, if_neg h92, if_neg hctl, hih]
                      rfl

theorem parseStringBody_serialize (s rest : List Nat) :
    parseStringBody (serializeStringBody s ++ 34 :: rest) = some (s, rest) := by
  apply parseStrAux_serialize
  have := serializeStringBody_length s
  simp
  omega

end Acp

namespace Acp

/-! ## Serialization head bytes and weights (towards C2) -/

theorem serializeNumber_shape (neg : Bool) (c : Nat) (e : Int) :
    ∃ h t, serializeNumber neg c e = h :: t ∧ (h = 45 ∨ (48 ≤ h ∧ h ≤ 57)) := by
  by_cases hc : c = 0
  · subst hc
    refine ⟨48, [], ?_, Or.inr (by omega)⟩
    simp [serializeNumber]
  · cases neg with
    | true =>
        refine ⟨45, (if 0 ≤ e then natDigits (c * 10 ^ e.toNat)
          else natDigits c ++ (69 :: 45 :: natDigits (-e).toNat)), ?_, Or.inl rfl⟩
        simp [serializeNumber, hc]
    | false =>
        by_cases he : 0 ≤ e
        · have hn0 : c * 10 ^ e.toNat ≠ 0 := by positivity
          obtain ⟨h1, t, hmant, hh1a, hh1b, -⟩ := natDigits_head _ hn0
          refine ⟨h1, t, ?_, Or.inr ⟨by omega, by omega⟩⟩
          simp [serializeNumber, hc, he, hmant]
        · obtain ⟨h1, t, hmant, hh1a, hh1b, -⟩ := natDigits_head c hc
          refine ⟨h1, t ++ (69 :: 45 :: natDigits (-e).toNat), ?_,
            Or.inr ⟨by omega, by omega⟩⟩
          simp [serializeNumber, hc, he, hmant]

theorem serialize_shape (v : JVal) :
    ∃ h t, serialize v = h :: t ∧
      (h = 110 ∨ h = 116 ∨ h = 102 ∨ h = 34 ∨ h = 91 ∨ h = 123 ∨ h = 45 ∨
        (48 ≤ h ∧ h ≤ 57)) := by
  cases v with
  | jnull => exact ⟨110, _, rfl, by tauto⟩
  | jbool b =>
      cases b with
      | true => exact ⟨116, _, rfl, by tauto⟩
      | false => exact ⟨102, _, rfl, by tauto⟩
  | jnum neg c e =>
      obtain ⟨h, t, hser, hh⟩ := serializeNumber_shape neg c e
      exact ⟨h, t, hser, by tauto⟩
  | jstr s => exact ⟨34, _, rfl, by tauto⟩
  | jarr xs => exact ⟨91, _, rfl, by tauto⟩
  | jobj fs => exact ⟨123, _, rfl, by tauto⟩

theorem serialize_length_pos (v : JVal) : 1 ≤ (serialize v).length := by
  obtain ⟨h, t, hser, -⟩ := serialize_shape v
  rw [hser]
  simp

theorem skipWs_cons (c : Nat) (t : List Nat) (h : isJsonWs c = false) :
    skipWs (c :: t) = c :: t := by
  simp [skipWs, List.dropWhile_cons, h]

theorem skipWs_serialize (v : JVal) (rest : List Nat) :
    skipWs (serialize v ++ rest) = serialize v ++ rest := by
  obtain ⟨h, t, hser, hh⟩ := serialize_shape v
  rw [hser, List.cons_append]
  apply skipWs_cons
  rcases hh with h1 | h1 | h1 | h1 | h1 | h1 | h1 | h1 <;>
    first
      | (subst h1; rfl)
      | (simp [isJsonWs]; omega)

theorem wVal_pos (v : JVal) : 1 ≤ wVal v := by
  cases v <;> simp [wVal]

theorem wElemsFirst_eq_rest (xs : List JVal) : wElemsFirst xs = wElemsRest xs := by
  cases xs <;> rfl

theorem wMembersFirst_eq_rest (fs : List (List Nat × JVal)) :
    wMembersFirst fs = wMembersRest fs := by
  cases fs with
  | nil => rfl
  | cons p fs => obtain ⟨k, v⟩ := p; rfl

theorem wElemsRest_pos (xs : List JVal) : 1 ≤ wElemsRest xs := by
  cases xs <;> simp [wElemsRest]

theorem wMembersRest_pos (fs : List (List Nat × JVal)) : 1 ≤ wMembersRest fs := by
  cases fs with
  | nil => simp [wMembersRest]
  | cons p fs => obtain ⟨k, v⟩ := p; simp [wMembersRest]

theorem serializeElemsRest_length_pos (xs : List JVal) :
    1 ≤ (serializeElemsRest xs).length := by
  cases xs <;> simp [serializeElemsRest]

theorem serializeFieldsRest_length_pos (fs : List (List Nat × JVal)) :
    1 ≤ (serializeFieldsRest fs).length := by
  cases fs with
  | nil => simp [serializeFieldsRest]
  | cons p fs => obtain ⟨k, v⟩ := p; simp [serializeFieldsRest]

theorem sepOk_serializeElemsRest (xs : List JVal) (rest : List Nat) :
    sepOk (serializeElemsRest xs ++ rest) := by
  cases xs with
  | nil => exact ⟨by decide, by decide, by decide, by decide⟩
  | cons x xs => exact ⟨by decide, by decide, by decide, by decide⟩

theorem sepOk_serializeFieldsRest (fs : List (List Nat × JVal)) (rest : List Nat) :
    sepOk (serializeFieldsRest fs ++ rest) := by
  cases fs with
  | nil => exact ⟨by decide, by decide, by decide, by decide⟩
  | cons p fs =>
      obtain ⟨k, v⟩ := p
      exact ⟨by decide, by decide, by decide, by decide⟩

end Acp

namespace Acp

/-- The parsing fuel a serialized value needs is covered by its length. -/
theorem weight_le_serialize : ∀ n : Nat,
    (∀ v : JVal, wVal v ≤ n → wVal v ≤ (serialize v).length + 1) ∧
    (∀ xs : List JVal, wElemsRest xs ≤ n →
      wElemsRest xs ≤ (serializeElemsRest xs).length + 1 ∧
      wElemsFirst xs ≤ (serializeElems xs).length + 1) ∧
    (∀ fs : List (List Nat × JVal), wMembersRest fs ≤ n →
      wMembersRest fs ≤ (serializeFieldsRest fs).length + 1 ∧
      wMembersFirst fs ≤ (serializeFields fs).length + 1) := by
  intro n
  induction n with
  | zero =>
      refine ⟨fun v hv => absurd hv (by have := wVal_pos v; omega),
        fun xs hxs => absurd hxs (by have := wElemsRest_pos xs; omega),
        fun fs hfs => absurd hfs (by have := wMembersRest_pos fs; omega)⟩
  | succ n ih =>
      obtain ⟨ihV, ihE, ihM⟩ := ih
      refine ⟨?_, ?_, ?_⟩
      · intro v hv
        cases v with
        | jnull => simp [wVal]
        | jbool b => cases b <;> simp [wVal, serialize]
        | jnum neg c e => simp [wVal]
        | jstr s => simp [wVal]
        | jarr xs =>
            simp only [wVal] at hv
            have h1 : wElemsRest xs ≤ n := by
              rw [← wElemsFirst_eq_rest]
              omega
            have h2 := (ihE xs h1).2
            simp only [wVal, serialize, List.length_cons]
            omega
        | jobj fs =>
            simp only [wVal] at hv
            have h1 : wMembersRest fs ≤ n := by
              rw [← wMembersFirst_eq_rest]
              omega
            have h2 := (ihM fs h1).2
            simp only [wVal, serialize, List.length_cons]
            omega
      · intro xs hxs
        cases xs with
        | nil => simp [wElemsRest, wElemsFirst, serializeElemsRest, serializeElems]
        | cons x xs =>
            simp only [wElemsRest] at hxs
            have hx : wVal x ≤ n := by omega
            have hxs' : wElemsRest xs ≤ n := by omega
            have h1 := ihV x hx
            have h2 := (ihE xs hxs').1
            have h3 := serialize_length_pos x
            have h4 := serializeElemsRest_length_pos xs
            constructor
            · simp only [wElemsRest, serializeElemsRest, List.length_cons,
                List.length_append]
              omega
            · simp only [wElemsFirst, serializeElems, List.length_append]
              omega
      · intro fs hfs
        cases fs with
        | nil =>
            simp [wMembersRest, wMembersFirst, serializeFieldsRest, serializeFields]
        | cons p fs =>
            obtain ⟨k, v⟩ := p
            simp only [wMembersRest] at hfs
            have hv : wVal v ≤ n := by omega
            have hfs' : wMembersRest fs ≤ n := by omega
            have h1 := ihV v hv
            have h2 := (ihM fs hfs').1
            have h3 := serialize_length_pos v
            have h4 := serializeFieldsRest_length_pos fs
            constructor
            · simp only [wMembersRest, serializeFieldsRest, serializeString,
                List.length_cons, List.length_append]
              omega
            · simp only [wMembersFirst, serializeFields, serializeString,
                List.length_cons, List.length_append]
              omega

end Acp

namespace Acp

/-- Round-trip of the canonical serializer through the parser, for values
whose numbers are in normal form; object field lists come back through the
`insertField` accumulation. -/
theorem parse_serialize : ∀ f : Nat,
    (∀ v rest, wfVal v = true → sepOk rest → wVal v ≤ f →
      parseVal f (serialize v ++ rest) = some (canonValue v, rest)) ∧
    (∀ xs rest, wfList xs = true → sepOk rest → wElemsFirst xs ≤ f →
      parseElemsFirst f (serializeElems xs ++ rest) =
        some (.jarr (canonList xs), rest)) ∧
    (∀ xs acc rest, wfList xs = true → sepOk rest → wElemsRest xs ≤ f →
      parseElemsRest f acc (serializeElemsRest xs ++ rest) =
        some (.jarr (acc ++ canonList xs), rest)) ∧
    (∀ k v rest, wfVal v = true → sepOk rest → 1 + wVal v ≤ f →
      parseMember f (serializeString k ++ 58 :: serialize v ++ rest) =
        some ((k, canonValue v), rest)) ∧
    (∀ fs rest, wfFields fs = true → sepOk rest → wMembersFirst fs ≤ f →
      parseMembersFirst f (serializeFields fs ++ rest) =
        some (.jobj (insFold [] (canonFields fs)), rest)) ∧
    (∀ fs acc rest, wfFields fs = true → sepOk rest → wMembersRest fs ≤ f →
      parseMembersRest f acc (serializeFieldsRest fs ++ rest) =
        some (.jobj (insFold acc (canonFields fs)), rest)) := by
  intro f
  induction f with
  | zero =>
      refine ⟨fun v rest _ _ hw => absurd hw (by have := wVal_pos v; omega),
        fun xs rest _ _ hw => absurd hw
          (by have := wElemsRest_pos xs; rw [wElemsFirst_eq_rest]; omega),
        fun xs acc rest _ _ hw => absurd hw (by have := wElemsRest_pos xs; omega),
        fun k v rest _ _ hw => absurd hw (by omega),
        fun fs rest _ _ hw => absurd hw
          (by have := wMembersRest_pos fs; rw [wMembersFirst_eq_rest]; omega),
        fun fs acc rest _ _ hw => absurd hw (by have := wMembersRest_pos fs; omega)⟩
  | succ f ih =>
      obtain ⟨ihV, ihEF, ihER, ihM, ihMF, ihMR⟩ := ih
      refine ⟨?_, ?_, ?_, ?_, ?_, ?_⟩
      -- parseVal
      · intro v rest hwf hsep hw
        cases v with
        | jnull => rfl
        | jbool b => cases b <;> rfl
        | jstr s =>
            have h1 : serialize (JVal.jstr s) ++ rest =
                34 :: (serializeStringBody s ++ 34 :: rest) := by
              simp [serialize, serializeString]
            rw [h1]
            show (parseStringBody (serializeStringBody s ++ 34 :: rest)).map
              (fun p => (JVal.jstr p.1, p.2)) = some (canonValue (JVal.jstr s), rest)
            rw [parseStringBody_serialize]
            rfl
        | jnum neg c e =>
            obtain ⟨h, t, hser, hh⟩ := serializeNumber_shape neg c e
            have hskip : skipWs (serializeNumber neg c e ++ rest) =
                serializeNumber neg c e ++ rest := by
              rw [hser, List.cons_append]
              apply skipWs_cons
              rcases hh with h1 | h1
              · subst h1; rfl
              · simp [isJsonWs]
                omega
            have hwn : normalNumB neg c e = true := hwf
            show parseVal (f + 1) (serializeNumber neg c e ++ rest) =
              some (JVal.jnum neg c e, rest)
            simp only [parseVal]
            rw [hskip, hser, List.cons_append]
            split
            · rename_i heq
              injection heq with hhd _
              rcases hh with h1 | h1 <;> omega
            · rename_i heq
              injection heq with hhd _
              rcases hh with h1 | h1 <;> omega
            · rename_i heq
              injection heq with hhd _
              rcases hh with h1 | h1 <;> omega
            · rename_i heq
              injection heq with hhd _
              rcases hh with h1 | h1 <;> omega
            · rename_i heq
              injection heq with hhd _
              rcases hh with h1 | h1 <;> omega
            · rename_i heq
              injection heq with hhd _
              rcases hh with h1 | h1 <;> omega
            · rw [← List.cons_append, ← hser]
              exact parseNumber_serialize neg c e rest hwn hsep
        | jarr xs =>
            show parseElemsFirst f (serializeElems xs ++ rest) =
              some (JVal.jarr (canonList xs), rest)
            apply ihEF xs rest hwf hsep
            simp only [wVal] at hw
            omega
        | jobj fs =>
            show parseMembersFirst f (serializeFields fs ++ rest) =
              some (JVal.jobj (insFold [] (canonFields fs)), rest)
            apply ihMF fs rest hwf hsep
            simp only [wVal] at hw
            omega
      -- parseElemsFirst
      · intro xs rest hwf hsep hw
        cases xs with
        | nil => rfl
        | cons x xs =>
            simp only [wfList, Bool.and_eq_true] at hwf
            obtain ⟨hwx, hwxs⟩ := hwf
            simp only [wElemsFirst] at hw
            obtain ⟨h, t, hser, hh⟩ := serialize_shape x
            have h1 : serializeElems (x :: xs) ++ rest =
                serialize x ++ (serializeElemsRest xs ++ rest) := by
              simp [serializeElems]
            rw [h1]
            simp only [parseElemsFirst]
            rw [skipWs_serialize x (serializeElemsRest xs ++ rest), hser,
              List.cons_append]
            split
            · rename_i heq
              injection heq with hhd _
              rcases hh with h1 | h1 | h1 | h1 | h1 | h1 | h1 | h1 <;> omega
            · rw [← List.cons_append, ← hser]
              show (parseVal f (serialize x ++ (serializeElemsRest xs ++ rest))).bind
                (fun vr => parseElemsRest f [vr.1] vr.2) =
                some (JVal.jarr (canonList (x :: xs)), rest)
              rw [ihV x (serializeElemsRest xs ++ rest) hwx
                (sepOk_serializeElemsRest xs rest) (by omega)]
              show parseElemsRest f [canonValue x] (serializeElemsRest xs ++ rest) =
                some (JVal.jarr (canonList (x :: xs)), rest)
              rw [ihER xs [canonValue x] rest hwxs hsep (by omega)]
              rfl
      -- parseElemsRest
      · intro xs acc rest hwf hsep hw
        cases xs with
        | nil =>
            show some (JVal.jarr acc, rest) =
              some (JVal.jarr (acc ++ canonList []), rest)
            rw [show canonList [] = [] from rfl, List.append_nil]
        | cons x xs =>
            simp only [wfList, Bool.and_eq_true] at hwf
            obtain ⟨hwx, hwxs⟩ := hwf
            simp only [wElemsRest] at hw
            have h1 : serializeElemsRest (x :: xs) ++ rest =
                44 :: (serialize x ++ (serializeElemsRest xs ++ rest)) := by
              simp [serializeElemsRest]
            rw [h1]
            show (parseVal f (serialize x ++ (serializeElemsRest xs ++ rest))).bind
              (fun vr => parseElemsRest f (acc ++ [vr.1]) vr.2) =
              some (JVal.jarr (acc ++ canonList (x :: xs)), rest)
            rw [ihV x (serializeElemsRest xs ++ rest) hwx
              (sepOk_serializeElemsRest xs rest) (by omega)]
            show parseElemsRest f (acc ++ [canonValue x])
              (serializeElemsRest xs ++ rest) =
              some (JVal.jarr (acc ++ canonList (x :: xs)), rest)
            rw [ihER xs (acc ++ [canonValue x]) rest hwxs hsep (by omega),
              List.append_assoc]
            rfl
      -- parseMember
      · intro k v rest hwf hsep hw
        have h1 : serializeString k ++ 58 :: serialize v ++ rest =
            34 :: (serializeStringBody k ++ 34 :: (58 :: (serialize v ++ rest))) := by
          simp [serializeString]
        rw [h1]
        show (parseStringBody
            (serializeStringBody k ++ 34 :: (58 :: (serialize v ++ rest)))).bind
          (fun kr =>
            match skipWs kr.2 with
            | 58 :: r2 => (parseVal f r2).bind (fun vr => some ((kr.1, vr.1), vr.2))
            | _ => none) = some ((k, canonValue v), rest)
        rw [parseStringBody_serialize]
        show (parseVal f (serialize v ++ rest)).bind
          (fun vr => some ((k, vr.1), vr.2)) = some ((k, canonValue v), rest)
        rw [ihV v rest hwf hsep (by omega)]
        rfl
      -- parseMembersFirst
      · intro fs rest hwf hsep hw
        cases fs with
        | nil => rfl
        | cons p fs =>
            obtain ⟨k, v⟩ := p
            simp only [wfFields, Bool.and_eq_true] at hwf
            obtain ⟨hwv, hwfs⟩ := hwf
            simp only [wMembersFirst] at hw
            have h1 : serializeFields ((k, v) :: fs) ++ rest =
                serializeString k ++ 58 :: serialize v ++
                  (serializeFieldsRest fs ++ rest) := by
              simp [serializeFields]
            rw [h1]
            show (parseMember f (serializeString k ++ 58 :: serialize v ++
                (serializeFieldsRest fs ++ rest))).bind
              (fun mr => parseMembersRest f (insertField mr.1.1 mr.1.2 []) mr.2) =
              some (JVal.jobj (insFold [] (canonFields ((k, v) :: fs))), rest)
            rw [ihM k v (serializeFieldsRest fs ++ rest) hwv
              (sepOk_serializeFieldsRest fs rest) (by omega)]
            show parseMembersRest f (insertField k (canonValue v) [])
              (serializeFieldsRest fs ++ rest) =
              some (JVal.jobj (insFold [] (canonFields ((k, v) :: fs))), rest)
            rw [ihMR fs (insertField k (canonValue v) []) rest hwfs hsep (by omega)]
            rfl
      -- parseMembersRest
      · intro fs acc rest hwf hsep hw
        cases fs with
        | nil => rfl
        | cons p fs =>
            obtain ⟨k, v⟩ := p
            simp only [wfFields, Bool.and_eq_true] at hwf
            obtain ⟨hwv, hwfs⟩ := hwf
            simp only [wMembersRest] at hw
            have h1 : serializeFieldsRest ((k, v) :: fs) ++ rest =
                44 :: (serializeString k ++ 58 :: serialize v ++
                  (serializeFieldsRest fs ++ rest)) := by
              simp [serializeFieldsRest]
            rw [h1]
            show (parseMember f (serializeString k ++ 58 :: serialize v ++
                (serializeFieldsRest fs ++ rest))).bind
              (fun mr => parseMembersRest f (insertField mr.1.1 mr.1.2 acc) mr.2) =
              some (JVal.jobj (insFold acc (canonFields ((k, v) :: fs))), rest)
            rw [ihM k v (serializeFieldsRest fs ++ rest) hwv
              (sepOk_serializeFieldsRest fs rest) (by omega)]
            show parseMembersRest f (insertField k (canonValue v) acc)
              (serializeFieldsRest fs ++ rest) =
              some (JVal.jobj (insFold acc (canonFields ((k, v) :: fs))), rest)
            rw [ihMR fs (insertField k (canonValue v) acc) rest hwfs hsep (by omega)]
            rfl

end Acp

namespace Acp

/-! ## insertField preserves sortedness and normality -/

theorem insertField_mem (k : List Nat) (v : JVal) :
    ∀ fs p, p ∈ insertField k v fs → p = (k, v) ∨ p ∈ fs := by
  intro fs
  induction fs with
  | nil =>
      intro p hp
      simp [insertField] at hp
      exact Or.inl hp
  | cons hd tl ih =>
      obtain ⟨k2, v2⟩ := hd
      intro p hp
      cases hcmp : lexCmp k k2 with
      | lt =>
          simp only [insertField, hcmp] at hp
          rcases List.mem_cons.mp hp with h | h
          · exact Or.inl h
          · exact Or.inr h
      | eq =>
          simp only [insertField, hcmp] at hp
          rcases List.mem_cons.mp hp with h | h
          · exact Or.inl h
          · exact Or.inr (by simp [h])
      | gt =>
          simp only [insertField, hcmp] at hp
          rcases List.mem_cons.mp hp with h | h
          · exact Or.inr (by simp [h])
          · rcases ih p h with h2 | h2
            · exact Or.inl h2
            · exact Or.inr (by simp [h2])

theorem insertField_pairwise (k : List Nat) (v : JVal) :
    ∀ fs, List.Pairwise (fun p q => lexCmp p.1 q.1 = .lt) fs →
      List.Pairwise (fun p q => lexCmp p.1 q.1 = .lt) (insertField k v fs) := by
  intro fs
  induction fs with
  | nil =>
      intro _
      simp [insertField]
  | cons hd tl ih =>
      obtain ⟨k2, v2⟩ := hd
      intro hp
      rw [List.pairwise_cons] at hp
      obtain ⟨hhd, htl⟩ := hp
      cases hcmp : lexCmp k k2 with
      | lt =>
          simp only [insertField, hcmp]
          rw [List.pairwise_cons]
          constructor
          · intro q hq
            rcases List.mem_cons.mp hq with h | h
            · subst h
              exact hcmp
            · exact lexCmp_trans_lt k k2 q.1 hcmp (hhd q h)
          · rw [List.pairwise_cons]
            exact ⟨hhd, htl⟩
      | eq =>
          have hk : k = k2 := (lexCmp_eq_iff k k2).mp hcmp
          subst hk
          simp only [insertField, hcmp]
          rw [List.pairwise_cons]
          exact ⟨hhd, htl⟩
      | gt =>
          simp only [insertField, hcmp]
          rw [List.pairwise_cons]
          constructor
          · intro q hq
            rcases insertField_mem k v tl q hq with h | h
            · subst h
              exact (lexCmp_lt_gt k2 k).mpr hcmp
            · exact hhd q h
          · exact ih htl

theorem fieldsNormalB_insertField (k : List Nat) (v : JVal) (hv : isNormal v = true) :
    ∀ fs, fieldsNormalB fs = true → fieldsNormalB (insertField k v fs) = true := by
  intro fs
  induction fs with
  | nil =>
      intro _
      simp [insertField, fieldsNormalB, hv]
  | cons hd tl ih =>
      obtain ⟨k2, v2⟩ := hd
      intro hn
      simp only [fieldsNormalB, Bool.and_eq_true] at hn
      obtain ⟨hn2, hntl⟩ := hn
      cases hcmp : lexCmp k k2 with
      | lt =>
          simp only [insertField, hcmp, fieldsNormalB, Bool.and_eq_true]
          exact ⟨hv, hn2, hntl⟩
      | eq =>
          simp only [insertField, hcmp, fieldsNormalB, Bool.and_eq_true]
          exact ⟨hv, hntl⟩
      | gt =>
          simp only [insertField, hcmp, fieldsNormalB, Bool.and_eq_true]
          exact ⟨hn2, ih hntl⟩

theorem allNormalB_append : ∀ l1 l2 : List JVal,
    allNormalB (l1 ++ l2) = (allNormalB l1 && allNormalB l2) := by
  intro l1 l2
  induction l1 with
  | nil => simp [allNormalB]
  | cons x xs ih =>
      simp only [List.cons_append, allNormalB, List.append_eq, ih, Bool.and_assoc]

theorem mkNum_normal (neg : Bool) (m : Nat) (e : Int) :
    isNormal (mkNum neg m e) = true := by
  by_cases hm : m = 0
  · subst hm
    rfl
  · obtain ⟨h1, -, h3⟩ := strip10_spec m hm
    simp only [mkNum, if_neg hm]
    show normalNumB neg (strip10 m).1 (e + (strip10 m).2) = true
    simp only [normalNumB, if_neg h3]
    simpa using h1

theorem parseNumber_normal (s : List Nat) (v : JVal) (r : List Nat)
    (h : parseNumber s = some (v, r)) : isNormal v = true := by
  unfold parseNumber at h
  split at h
  · exact Option.noConfusion h
  · split at h
    · exact Option.noConfusion h
    · split at h
      · exact Option.noConfusion h
      · simp only [Option.some.injEq, Prod.mk.injEq] at h
        obtain ⟨hv, -⟩ := h
        rw [← hv]
        apply mkNum_normal

end Acp

namespace Acp

/-- On canonical-form values (sorted objects, normal numbers) the parser
reconstruction is the identity, and normality implies number-normality. -/
theorem canon_of_normal : ∀ n : Nat,
    (∀ v, wVal v ≤ n → isNormal v = true → canonValue v = v ∧ wfVal v = true) ∧
    (∀ xs, wElemsRest xs ≤ n → allNormalB xs = true →
      canonList xs = xs ∧ wfList xs = true) ∧
    (∀ fs, wMembersRest fs ≤ n → fieldsNormalB fs = true →
      canonFields fs = fs ∧ wfFields fs = true) := by
  intro n
  induction n with
  | zero =>
      refine ⟨fun v hw _ => absurd hw (by have := wVal_pos v; omega),
        fun xs hw _ => absurd hw (by have := wElemsRest_pos xs; omega),
        fun fs hw _ => absurd hw (by have := wMembersRest_pos fs; omega)⟩
  | succ n ih =>
      obtain ⟨ihV, ihE, ihF⟩ := ih
      refine ⟨?_, ?_, ?_⟩
      · intro v hw hn
        cases v with
        | jnull => exact ⟨rfl, rfl⟩
        | jbool b => exact ⟨rfl, rfl⟩
        | jnum neg c e => exact ⟨rfl, hn⟩
        | jstr s => exact ⟨rfl, rfl⟩
        | jarr xs =>
            simp only [wVal] at hw
            have hxs : wElemsRest xs ≤ n := by
              rw [← wElemsFirst_eq_rest]
              omega
            obtain ⟨hc, hwf⟩ := ihE xs hxs hn
            refine ⟨?_, hwf⟩
            show JVal.jarr (canonList xs) = JVal.jarr xs
            rw [hc]
        | jobj fs =>
            simp only [wVal] at hw
            have hfs : wMembersRest fs ≤ n := by
              rw [← wMembersFirst_eq_rest]
              omega
            have hn2 : fieldsSortedB fs = true ∧ fieldsNormalB fs = true := by
              simpa [isNormal, Bool.and_eq_true] using hn
            obtain ⟨hc, hwf⟩ := ihF fs hfs hn2.2
            refine ⟨?_, hwf⟩
            show JVal.jobj (insFold [] (canonFields fs)) = JVal.jobj fs
            rw [hc]
            rw [insFold_sorted fs []
              (by simpa using (fieldsSortedB_iff_pairwise fs).mp hn2.1)]
            rfl
      · intro xs hw hn
        cases xs with
        | nil => exact ⟨rfl, rfl⟩
        | cons x xs =>
            simp only [wElemsRest] at hw
            simp only [allNormalB, Bool.and_eq_true] at hn
            obtain ⟨hnx, hnxs⟩ := hn
            obtain ⟨hc1, hw1⟩ := ihV x (by omega) hnx
            obtain ⟨hc2, hw2⟩ := ihE xs (by omega) hnxs
            constructor
            · show canonValue x :: canonList xs = x :: xs
              rw [hc1, hc2]
            · show (wfVal x && wfList xs) = true
              rw [hw1, hw2]
              rfl
      · intro fs hw hn
        cases fs with
        | nil => exact ⟨rfl, rfl⟩
        | cons p fs =>
            obtain ⟨k, v⟩ := p
            simp only [wMembersRest] at hw
            simp only [fieldsNormalB, Bool.and_eq_true] at hn
            obtain ⟨hnv, hnfs⟩ := hn
            obtain ⟨hc1, hw1⟩ := ihV v (by omega) hnv
            obtain ⟨hc2, hw2⟩ := ihF fs (by omega) hnfs
            constructor
            · show (k, canonValue v) :: canonFields fs = (k, v) :: fs
              rw [hc1, hc2]
            · show (wfVal v && wfFields fs) = true
              rw [hw1, hw2]
              rfl

end Acp

namespace Acp

/-- Everything the parser produces is in canonical form: numbers normal,
object field lists key-sorted with normal values. -/
theorem parse_normal : ∀ f : Nat,
    (∀ s v r, parseVal f s = some (v, r) → isNormal v = true) ∧
    (∀ s v r, parseElemsFirst f s = some (v, r) → isNormal v = true) ∧
    (∀ acc s v r, parseElemsRest f acc s = some (v, r) → allNormalB acc = true →
      isNormal v = true) ∧
    (∀ s kv r, parseMember f s = some (kv, r) → isNormal kv.2 = true) ∧
    (∀ s v r, parseMembersFirst f s = some (v, r) → isNormal v = true) ∧
    (∀ acc s v r, parseMembersRest f acc s = some (v, r) →
      fieldsSortedB acc = true → fieldsNormalB acc = true →
      isNormal v = true) := by
  intro f
  induction f with
  | zero =>
      exact ⟨fun s v r h => Option.noConfusion h,
        fun s v r h => Option.noConfusion h,
        fun acc s v r h => Option.noConfusion h,
        fun s kv r h => Option.noConfusion h,
        fun s v r h => Option.noConfusion h,
        fun acc s v r h => Option.noConfusion h⟩
  | succ f ih =>
      obtain ⟨ihV, ihEF, ihER, ihM, ihMF, ihMR⟩ := ih
      refine ⟨?_, ?_, ?_, ?_, ?_, ?_⟩
      · intro s v r h
        simp only [parseVal] at h
        split at h
        · simp only [Option.some.injEq, Prod.mk.injEq] at h
          rw [← h.1]
          rfl
        · simp only [Option.some.injEq, Prod.mk.injEq] at h
          rw [← h.1]
          rfl
        · simp only [Option.some.injEq, Prod.mk.injEq] at h
          rw [← h.1]
          rfl
        · rename_i r1 heq
          cases hs : parseStringBody r1 with
          | none =>
              rw [hs] at h
              exact Option.noConfusion h
          | some p =>
              rw [hs] at h
              simp only [Option.map, Option.some.injEq, Prod.mk.injEq] at h
              rw [← h.1]
              rfl
        · rename_i r1 heq
          exact ihMF r1 v r h
        · rename_i r1 heq
          exact ihEF r1 v r h
        · exact parseNumber_normal (skipWs s) v r h
      · intro s v r h
        simp only [parseElemsFirst] at h
        split at h
        · simp only [Option.some.injEq, Prod.mk.injEq] at h
          rw [← h.1]
          rfl
        · cases hx : parseVal f (skipWs s) with
          | none =>
              rw [hx] at h
              exact Option.noConfusion h
          | some vr =>
              rw [hx] at h
              have h2 : parseElemsRest f [vr.1] vr.2 = some (v, r) := h
              apply ihER _ _ _ _ h2
              have hnx : isNormal vr.1 = true := ihV (skipWs s) vr.1 vr.2 (by rw [hx])
              simp [allNormalB, hnx]
      · intro acc s v r h hacc
        simp only [parseElemsRest] at h
        split at h
        · rename_i r1 heq
          cases hx : parseVal f r1 with
          | none =>
              rw [hx] at h
              exact Option.noConfusion h
          | some vr =>
              rw [hx] at h
              have h2 : parseElemsRest f (acc ++ [vr.1]) vr.2 = some (v, r) := h
              apply ihER _ _ _ _ h2
              have hnx : isNormal vr.1 = true := ihV r1 vr.1 vr.2 (by rw [hx])
              rw [allNormalB_append, hacc]
              simp [allNormalB, hnx]
        · simp only [Option.some.injEq, Prod.mk.injEq] at h
          rw [← h.1]
          exact hacc
        · exact Option.noConfusion h
      · intro s kv r h
        simp only [parseMember] at h
        split at h
        · rename_i r1 heq
          cases hs : parseStringBody r1 with
          | none =>
              rw [hs] at h
              exact Option.noConfusion h
          | some kr =>
              rw [hs] at h
              have h2 : (match skipWs kr.2 with
                | 58 :: r2 =>
                    (parseVal f r2).bind (fun vr => some ((kr.1, vr.1), vr.2))
                | _ => none) = some (kv, r) := h
              split at h2
              · rename_i r2 heq2
                cases hx : parseVal f r2 with
                | none =>
                    rw [hx] at h2
                    exact Option.noConfusion h2
                | some vr =>
                    rw [hx] at h2
                    have h3 : some ((kr.1, vr.1), vr.2) = some (kv, r) := h2
                    simp only [Option.some.injEq, Prod.mk.injEq] at h3
                    have hv2 : kv.2 = vr.1 := by
                      rw [← h3.1]
                    rw [hv2]
                    exact ihV r2 vr.1 vr.2 (by rw [hx])
              · exact Option.noConfusion h2
        · exact Option.noConfusion h
      · intro s v r h
        simp only [parseMembersFirst] at h
        split at h
        · simp only [Option.some.injEq, Prod.mk.injEq] at h
          rw [← h.1]
          rfl
        · cases hx : parseMember f (skipWs s) with
          | none =>
              rw [hx] at h
              exact Option.noConfusion h
          | some mr =>
              rw [hx] at h
              have h2 : parseMembersRest f (insertField mr.1.1 mr.1.2 []) mr.2 =
                  some (v, r) := h
              have hnx : isNormal mr.1.2 = true := ihM (skipWs s) mr.1 mr.2 (by rw [hx])
              apply ihMR _ _ _ _ h2
              · simp [insertField, fieldsSortedB]
              · simp [insertField, fieldsNormalB, hnx]
      · intro acc s v r h hsort hnorm
        simp only [parseMembersRest] at h
        split at h
        · rename_i r1 heq
          cases hx : parseMember f r1 with
          | none =>
              rw [hx] at h
              exact Option.noConfusion h
          | some mr =>
              rw [hx] at h
              have h2 : parseMembersRest f (insertField mr.1.1 mr.1.2 acc) mr.2 =
                  some (v, r) := h
              have hnx : isNormal mr.1.2 = true := ihM r1 mr.1 mr.2 (by rw [hx])
              apply ihMR _ _ _ _ h2
              · rw [fieldsSortedB_iff_pairwise]
                exact insertField_pairwise mr.1.1 mr.1.2 acc
                  ((fieldsSortedB_iff_pairwise acc).mp hsort)
              · exact fieldsNormalB_insertField mr.1.1 mr.1.2 hnx acc hnorm
        · simp only [Option.some.injEq, Prod.mk.injEq] at h
          rw [← h.1]
          show (fieldsSortedB acc && fieldsNormalB acc) = true
          rw [hsort, hnorm]
          rfl
        · exact Option.noConfusion h

end Acp

namespace Acp

/-! ## insertField folding is permutation-invariant on duplicate-free keys -/

theorem insertField_perm (k : List Nat) (v : JVal) :
    ∀ fs, k ∉ fs.map Prod.fst → (insertField k v fs).Perm ((k, v) :: fs) := by
  intro fs
  induction fs with
  | nil =>
      intro _
      exact List.Perm.refl _
  | cons hd tl ih =>
      obtain ⟨k2, v2⟩ := hd
      intro hk
      simp only [List.map_cons, List.mem_cons] at hk
      push_neg at hk
      obtain ⟨hk1, hk2⟩ := hk
      cases hcmp : lexCmp k k2 with
      | lt =>
          simp only [insertField, hcmp]
          exact List.Perm.refl _
      | eq => exact absurd ((lexCmp_eq_iff k k2).mp hcmp) hk1
      | gt =>
          simp only [insertField, hcmp]
          exact List.Perm.trans (List.Perm.cons _ (ih hk2))
            (List.Perm.swap (k, v) (k2, v2) tl)

theorem insFold_pairwise :
    ∀ fs acc, List.Pairwise (fun p q => lexCmp p.1 q.1 = .lt) acc →
      List.Pairwise (fun p q => lexCmp p.1 q.1 = .lt) (insFold acc fs) := by
  intro fs
  induction fs with
  | nil =>
      intro acc h
      exact h
  | cons hd tl ih =>
      obtain ⟨k, v⟩ := hd
      intro acc h
      exact ih (insertField k v acc) (insertField_pairwise k v acc h)

theorem insFold_perm :
    ∀ fs acc : List (List Nat × JVal),
      (fs.map Prod.fst ++ acc.map Prod.fst).Nodup →
      (insFold acc fs).Perm (fs ++ acc) := by
  intro fs
  induction fs with
  | nil =>
      intro acc _
      exact List.Perm.refl _
  | cons hd tl ih =>
      obtain ⟨k, v⟩ := hd
      intro acc hnd
      simp only [List.map_cons, List.cons_append, List.nodup_cons,
        List.mem_append, List.mem_map] at hnd
      obtain ⟨hk, hnd2⟩ := hnd
      have hkacc : k ∉ acc.map Prod.fst := by
        intro hmem
        exact hk (Or.inr (by simpa using hmem))
      have hins := insertField_perm k v acc hkacc
      have hinskeys : ((insertField k v acc).map Prod.fst).Perm
          (k :: acc.map Prod.fst) := by
        simpa using hins.map Prod.fst
      have hperm0 : (k :: (tl.map Prod.fst ++ acc.map Prod.fst)).Perm
          (tl.map Prod.fst ++ ((insertField k v acc).map Prod.fst)) :=
        List.Perm.trans (List.perm_middle.symm)
          ((List.Perm.append_left (tl.map Prod.fst)) hinskeys.symm)
      have hnd3 : (tl.map Prod.fst ++ ((insertField k v acc).map Prod.fst)).Nodup := by
        apply hperm0.nodup
        rw [List.nodup_cons]
        constructor
        · intro hmem
          rcases List.mem_append.mp hmem with h | h
          · exact hk (Or.inl (by simpa using h))
          · exact hk (Or.inr (by simpa using h))
        · exact hnd2
      have hrec := ih (insertField k v acc) hnd3
      show (insFold (insertField k v acc) tl).Perm ((k, v) :: (tl ++ acc))
      refine List.Perm.trans hrec ?_
      refine List.Perm.trans ((List.Perm.append_left tl) hins) ?_
      exact List.perm_middle

theorem sorted_perm_eq :
    ∀ l1 l2 : List (List Nat × JVal),
      List.Pairwise (fun p q => lexCmp p.1 q.1 = .lt) l1 →
      List.Pairwise (fun p q => lexCmp p.1 q.1 = .lt) l2 →
      l1.Perm l2 → l1 = l2 := by
  intro l1
  induction l1 with
  | nil =>
      intro l2 _ _ hp
      exact (List.Perm.eq_nil hp.symm).symm
  | cons a t1 ih =>
      intro l2 h1 h2 hp
      cases l2 with
      | nil => exact List.noConfusion (List.Perm.eq_nil hp)
      | cons b t2 =>
          have ha : a ∈ b :: t2 := hp.mem_iff.mp (by simp)
          have hab : a = b := by
            rcases List.mem_cons.mp ha with h | h
            · exact h
            · have hba : lexCmp b.1 a.1 = .lt := (List.pairwise_cons.mp h2).1 a h
              have hb1 : b ∈ a :: t1 := hp.mem_iff.mpr (by simp)
              rcases List.mem_cons.mp hb1 with h3 | h3
              · exact h3.symm
              · have hab2 : lexCmp a.1 b.1 = .lt := (List.pairwise_cons.mp h1).1 b h3
                have hgt : lexCmp b.1 a.1 = .gt := (lexCmp_lt_gt a.1 b.1).mp hab2
                rw [hba] at hgt
                exact Ordering.noConfusion hgt
          subst hab
          have ht : t1.Perm t2 := hp.cons_inv
          rw [ih t2 (List.pairwise_cons.mp h1).2 (List.pairwise_cons.mp h2).2 ht]

theorem insFold_perm_eq (fs1 fs2 : List (List Nat × JVal))
    (hperm : fs1.Perm fs2) (hnd : (fs1.map Prod.fst).Nodup) :
    insFold [] fs1 = insFold [] fs2 := by
  have hnd2 : (fs2.map Prod.fst).Nodup := (hperm.map Prod.fst).nodup hnd
  apply sorted_perm_eq
  · exact insFold_pairwise fs1 [] (List.Pairwise.nil)
  · exact insFold_pairwise fs2 [] (List.Pairwise.nil)
  · have h1 := insFold_perm fs1 [] (by simpa using hnd)
    have h2 := insFold_perm fs2 [] (by simpa using hnd2)
    refine List.Perm.trans h1 ?_
    refine List.Perm.trans ?_ h2.symm
    simpa using hperm

end Acp

namespace Acp

/-! ## Canonicalization of canonical output -/

theorem trimSpace_ne_nil (h : Nat) (t : List Nat)
    (hns : isUnicodeSpace h = false) : trimSpace (h :: t) ≠ [] := by
  intro heq
  simp only [trimSpace, List.dropWhile_cons, hns] at heq
  rw [List.reverse_eq_nil_iff, List.dropWhile_eq_nil_iff] at heq
  have := heq h (by simp)
  rw [hns] at this
  exact Bool.noConfusion this

theorem trimSpace_eq_nil_of_space (s : List Nat)
    (h : ∀ c ∈ s, isUnicodeSpace c = true) : trimSpace s = [] := by
  have h1 : s.dropWhile isUnicodeSpace = [] :=
    List.dropWhile_eq_nil_iff.mpr h
  simp [trimSpace, h1]

theorem canonicalizeJSONBody_serialize (v : JVal) (hwf : wfVal v = true) :
    canonicalizeJSONBody (serialize v) = some (serialize (canonValue v)) := by
  obtain ⟨h, t, hser, hh⟩ := serialize_shape v
  have hns : isUnicodeSpace h = false := by
    rcases hh with h1 | h1 | h1 | h1 | h1 | h1 | h1 | h1 <;>
      first
        | (subst h1; rfl)
        | (simp [isUnicodeSpace]; omega)
  have htrim : trimSpace (serialize v) ≠ [] := by
    rw [hser]
    exact trimSpace_ne_nil h t hns
  unfold canonicalizeJSONBody
  rw [if_neg htrim]
  have hwle : wVal v ≤ (serialize v).length + 1 :=
    (weight_le_serialize (wVal v)).1 v (le_refl _)
  have hparse : parseVal ((serialize v).length + 1) (serialize v) =
      some (canonValue v, []) := by
    have h2 := (parse_serialize ((serialize v).length + 1)).1 v [] hwf trivial
      (by omega)
    simpa using h2
  rw [hparse]
  rfl

theorem canonicalizeJSONBody_serialize_normal (v : JVal)
    (hn : isNormal v = true) :
    canonicalizeJSONBody (serialize v) = some (serialize v) := by
  obtain ⟨hc, hwf⟩ := (canon_of_normal (wVal v)).1 v (le_refl _) hn
  rw [canonicalizeJSONBody_serialize v hwf, hc]

theorem wfFields_iff (fs : List (List Nat × JVal)) :
    wfFields fs = true ↔ ∀ p ∈ fs, wfVal p.2 = true := by
  induction fs with
  | nil => simp [wfFields]
  | cons p fs ih =>
      obtain ⟨k, v⟩ := p
      simp [wfFields, Bool.and_eq_true, ih]

theorem canonFields_eq_map (fs : List (List Nat × JVal)) :
    canonFields fs = fs.map (fun p => (p.1, canonValue p.2)) := by
  induction fs with
  | nil => rfl
  | cons p fs ih =>
      obtain ⟨k, v⟩ := p
      simp [canonFields, ih]

end Acp

namespace Acp

/-- C2: canonicalization is idempotent — whenever `CanonicalizeJSONBody`
succeeds on `raw`, running it again on its own output returns that very
output — and order-independent: serializations of the same object (fields
permuted, keys distinct, number literals in the value normal form the
decoder produces) canonicalize to byte-identical output. -/
theorem canonicalization_idempotent_order_independent :
    (∀ raw out, canonicalizeJSONBody raw = some out →
      canonicalizeJSONBody out = some out) ∧
    (∀ fs1 fs2 : List (List Nat × JVal), fs1.Perm fs2 →
      (fs1.map Prod.fst).Nodup → wfFields fs1 = true →
      canonicalizeJSONBody (serialize (.jobj fs1)) =
        canonicalizeJSONBody (serialize (.jobj fs2))) := by
  constructor
  · intro raw out h
    unfold canonicalizeJSONBody at h
    split at h
    · simp only [Option.some.injEq] at h
      rw [← h]
      rfl
    · split at h
      · exact Option.noConfusion h
      · rename_i vr heq
        split at h
        · exact Option.noConfusion h
        · simp only [Option.some.injEq] at h
          have hn : isNormal vr.1 = true :=
            (parse_normal (raw.length + 1)).1 raw vr.1 vr.2 heq
          rw [← h]
          exact canonicalizeJSONBody_serialize_normal vr.1 hn
  · intro fs1 fs2 hperm hnd hwf
    have hwf2 : wfFields fs2 = true :=
      (wfFields_iff fs2).mpr fun p hp =>
        (wfFields_iff fs1).mp hwf p (hperm.mem_iff.mpr hp)
    rw [canonicalizeJSONBody_serialize (JVal.jobj fs1) hwf,
      canonicalizeJSONBody_serialize (JVal.jobj fs2) hwf2]
    have hcf : (canonFields fs1).Perm (canonFields fs2) := by
      rw [canonFields_eq_map, canonFields_eq_map]
      exact hperm.map _
    have hndc : ((canonFields fs1).map Prod.fst).Nodup := by
      rw [canonFields_eq_map, List.map_map]
      simpa [Function.comp] using hnd
    have hco : canonValue (.jobj fs1) = canonValue (.jobj fs2) := by
      show JVal.jobj (insFold [] (canonFields fs1)) =
        JVal.jobj (insFold [] (canonFields fs2))
      rw [insFold_perm_eq (canonFields fs1) (canonFields fs2) hcf hndc]
    rw [hco]

/-- Witness: canonicalizing " null" gives "null", which re-canonicalizes
to itself; the two key orders of `{"a": null, "b": true}` canonicalize to
the same bytes. -/
theorem canonicalization_idempotent_order_independent_witness :
    canonicalizeJSONBody [110, 117, 108, 108] = some [110, 117, 108, 108] ∧
    canonicalizeJSONBody
        (serialize (JVal.jobj [([97], JVal.jnull), ([98], JVal.jbool true)])) =
      canonicalizeJSONBody
        (serialize (JVal.jobj [([98], JVal.jbool true), ([97], JVal.jnull)])) := by
  constructor
  · exact canonicalization_idempotent_order_independent.1
      [32, 110, 117, 108, 108] [110, 117, 108, 108] (by rfl)
  · exact canonicalization_idempotent_order_independent.2
      [([97], JVal.jnull), ([98], JVal.jbool true)]
      [([98], JVal.jbool true), ([97], JVal.jnull)]
      (List.Perm.swap ([98], JVal.jbool true) ([97], JVal.jnull) [])
      (by decide) (by decide)

/-- C7: an input that is empty or all Unicode whitespace canonicalizes to
the literal bytes `null` with no error; but a valid document followed by
trailing non-whitespace data is NOT rejected when the trailing byte is `]`
or `}` — `dec.More()` treats them as end-of-input, so `null]` silently
canonicalizes to `null` instead of erroring, contradicting the trailing
part of the claim. -/
theorem canonicalize_empty_null_trailing_data :
    (∀ raw, (∀ c ∈ raw, isUnicodeSpace c = true) →
      canonicalizeJSONBody raw = some [110, 117, 108, 108]) ∧
    canonicalizeJSONBody [110, 117, 108, 108, 93] =
      some [110, 117, 108, 108] := by
  constructor
  · intro raw hall
    unfold canonicalizeJSONBody
    rw [if_pos (trimSpace_eq_nil_of_space raw hall)]
  · rfl

/-- Witness: a whitespace-only body gives `null`; the failing input
`null]` (trailing `]` after a complete document) also succeeds with
`null` instead of erroring. -/
theorem canonicalize_empty_null_trailing_data_witness :
    canonicalizeJSONBody [32, 9] = some [110, 117, 108, 108] ∧
    canonicalizeJSONBody [110, 117, 108, 108, 93] =
      some [110, 117, 108, 108] :=
  ⟨canonicalize_empty_null_trailing_data.1 [32, 9] (by decide),
    canonicalize_empty_null_trailing_data.2⟩

end Acp
